import Mathlib

/-
Verification development for the QuickBatch repository (QuickBatch.py and
video_renamer.py).  The Python code is shallowly embedded: the filesystem is
an association list from paths (lists of components) to file contents (byte
lists), pure string helpers are translated character by character, and the
external encoder and metadata readers are oracles passed as parameters.
Character classes follow the ASCII reading of the regular expressions used in
the source.
-/

set_option autoImplicit false

namespace QuickBatch

/-- File contents, modelled as a list of bytes. -/
abbrev Content := List Nat

/-- A filesystem path, modelled as its list of components. -/
abbrev FsPath := List String

/-- A filesystem: a finite association of paths to file contents.  Paths not
listed do not exist.  Later operations keep at most one entry per path. -/
abbrev FS := List (FsPath × Content)

/-- Content of the file at path `p`, if a file exists there. -/
def fsLookup (fs : FS) (p : FsPath) : Option Content :=
  match fs with
  | [] => none
  | (q, c) :: rest => if q = p then some c else fsLookup rest p

/-- Existence test, mirroring `Path.exists()`. -/
def fsExists (fs : FS) (p : FsPath) : Bool :=
  (fsLookup fs p).isSome

/-- Remove the file at path `p` (all entries with that path), mirroring
`Path.unlink()`. -/
def fsErase (fs : FS) (p : FsPath) : FS :=
  fs.filter (fun e => e.1 ≠ p)

/-- Create or overwrite the file at path `p` with content `c`. -/
def fsInsert (fs : FS) (p : FsPath) (c : Content) : FS :=
  (p, c) :: fsErase fs p

/-- Move the file at `src` to `dst`, mirroring `shutil.move` for a
same-filesystem rename.  If `src` does not exist nothing happens (the real
call would raise; all uses below move files known to exist). -/
def fsMove (fs : FS) (src dst : FsPath) : FS :=
  match fsLookup fs src with
  | some c => fsInsert (fsErase fs src) dst c
  | none => fs

@[simp] theorem fsLookup_nil (p : FsPath) : fsLookup [] p = none := rfl

@[simp] theorem fsLookup_cons (q : FsPath) (c : Content) (fs : FS) (p : FsPath) :
    fsLookup ((q, c) :: fs) p = if q = p then some c else fsLookup fs p := rfl

theorem fsErase_cons_self (r : FsPath) (c : Content) (rest : FS) :
    fsErase ((r, c) :: rest) r = fsErase rest r := by
  simp [fsErase, List.filter_cons]

theorem fsErase_cons_ne (r : FsPath) (c : Content) (rest : FS) (p : FsPath)
    (h : r ≠ p) : fsErase ((r, c) :: rest) p = (r, c) :: fsErase rest p := by
  simp [fsErase, List.filter_cons, h]

theorem fsLookup_erase (fs : FS) (p q : FsPath) :
    fsLookup (fsErase fs p) q = if p = q then none else fsLookup fs q := by
  induction fs with
  | nil => simp [fsErase]
  | cons e rest ih =>
    obtain ⟨r, c⟩ := e
    by_cases hrp : r = p
    · subst hrp
      rw [fsErase_cons_self, ih]
      by_cases hq : r = q <;> simp [hq]
    · rw [fsErase_cons_ne _ _ _ _ hrp]
      by_cases hq : r = q
      · subst hq
        have hpq : p ≠ r := fun h => hrp h.symm
        simp [hpq]
      · simp [hq, ih]

theorem fsLookup_insert (fs : FS) (p : FsPath) (c : Content) (q : FsPath) :
    fsLookup (fsInsert fs p c) q = if p = q then some c else fsLookup fs q := by
  by_cases h : p = q <;> simp [fsInsert, h, fsLookup_erase]

theorem fsExists_iff (fs : FS) (p : FsPath) :
    fsExists fs p = true ↔ ∃ c, fsLookup fs p = some c := by
  unfold fsExists
  cases h : fsLookup fs p <;> simp [Option.isSome, h]

theorem fsExists_eq_false (fs : FS) (p : FsPath) :
    fsExists fs p = false ↔ fsLookup fs p = none := by
  unfold fsExists
  cases h : fsLookup fs p <;> simp [Option.isSome, h]

theorem fsExists_true_mem (fs : FS) (p : FsPath) (h : fsExists fs p = true) :
    p ∈ fs.map Prod.fst := by
  induction fs with
  | nil => simp [fsExists, fsLookup] at h
  | cons e rest ih =>
    obtain ⟨r, c⟩ := e
    by_cases hr : r = p
    · simp [hr]
    · simp only [fsExists, fsLookup_cons, hr, if_false] at h
      simpa using Or.inr (ih h)

/-- Decimal rendering of a natural number, digit characters built by repeated
division; fuel-structured so it computes by kernel reduction.  With fuel
`n + 1` this is the decimal numeral of `n`, i.e. Python's `str(n)`. -/
def natReprAux : Nat → Nat → List Char
  | 0, _ => []
  | fuel + 1, n =>
    if n < 10 then [Nat.digitChar n]
    else natReprAux fuel (n / 10) ++ [Nat.digitChar (n % 10)]

/-- Python's `str(n)` for a natural number `n`. -/
def natRepr (n : Nat) : String := ⟨natReprAux (n + 1) n⟩

/-- Read a list of decimal digit characters back as a number; left inverse of
`natReprAux`, used only to prove injectivity of `natRepr`. -/
def charsToNat (cs : List Char) : Nat :=
  cs.foldl (fun a c => a * 10 + (c.toNat - 48)) 0

theorem digitChar_toNat (n : Nat) (h : n < 10) : (Nat.digitChar n).toNat = 48 + n := by
  interval_cases n <;> rfl

theorem charsToNat_append_digit (cs : List Char) (c : Char) :
    charsToNat (cs ++ [c]) = 10 * charsToNat cs + (c.toNat - 48) := by
  unfold charsToNat
  rw [List.foldl_append]
  simp [Nat.mul_comm]

theorem charsToNat_natReprAux (fuel : Nat) :
    ∀ n, n < 10 ^ fuel → charsToNat (natReprAux fuel n) = n := by
  induction fuel with
  | zero =>
    intro n hn
    interval_cases n
    rfl
  | succ fuel ih =>
    intro n hn
    by_cases h10 : n < 10
    · simp only [natReprAux, if_pos h10]
      show charsToNat ([] ++ [Nat.digitChar n]) = n
      rw [charsToNat_append_digit, digitChar_toNat n h10]
      simp [charsToNat]
    · simp only [natReprAux, if_neg h10]
      rw [charsToNat_append_digit, ih (n / 10) ?hlt,
        digitChar_toNat (n % 10) (Nat.mod_lt n (by omega))]
      · omega
      case hlt =>
        rw [Nat.div_lt_iff_lt_mul (by omega)]
        calc n < 10 ^ (fuel + 1) := hn
        _ = 10 ^ fuel * 10 := by ring

theorem lt_ten_pow_succ (n : Nat) : n < 10 ^ (n + 1) :=
  lt_of_lt_of_le (lt_of_lt_of_le (Nat.lt_two_pow n)
    (Nat.pow_le_pow_left (by omega) n))
    (Nat.pow_le_pow_right (by omega) (Nat.le_succ n))

theorem charsToNat_natRepr (n : Nat) : charsToNat (natRepr n).data = n :=
  charsToNat_natReprAux (n + 1) n (lt_ten_pow_succ n)

theorem natRepr_inj : Function.Injective natRepr := by
  intro m n h
  have hd : (natRepr m).data = (natRepr n).data := by rw [h]
  have := charsToNat_natRepr m
  rw [hd, charsToNat_natRepr n] at this
  exact this.symm

/-- Index of the last dot in a character list, mirroring `str.rfind('.')`
(except that absence is `none` rather than `-1`). -/
def rfindDot : List Char → Option Nat
  | [] => none
  | c :: cs =>
    match rfindDot cs with
    | some i => some (i + 1)
    | none => if c = '.' then some 0 else none

/-- Stem of a file name, mirroring `pathlib.PurePath.stem`: everything before
the last dot, provided that dot is neither the first nor the last character;
otherwise the whole name.  The argument is the file name (final path
component). -/
def pyStemList (cs : List Char) : List Char :=
  match rfindDot cs with
  | some i => if 0 < i ∧ i < cs.length - 1 then cs.take i else cs
  | none => cs

/-- Suffix of a file name, mirroring `pathlib.PurePath.suffix`. -/
def pySuffixList (cs : List Char) : List Char :=
  match rfindDot cs with
  | some i => if 0 < i ∧ i < cs.length - 1 then cs.drop i else []
  | none => []

/-- String-level `pathlib` stem. -/
def pyStem (s : String) : String := ⟨pyStemList s.data⟩

/-- String-level `pathlib` suffix. -/
def pySuffix (s : String) : String := ⟨pySuffixList s.data⟩

example : pyStem "a.mp4" = "a" := by decide
example : pySuffix "a.mp4" = ".mp4" := by decide
example : pyStem "archive.tar.gz" = "archive.tar" := by decide
example : pyStem ".bashrc" = ".bashrc" := by decide
example : natRepr 120 = "120" := by decide

/-- Candidate path `dir / base_k.ext` probed by `handle_duplicate_names`
with counter value `k`, mirroring the f-string in the source. -/
def dupCandidate (dir : List String) (base ext : String) (k : Nat) : FsPath :=
  dir ++ [base ++ "_" ++ natRepr k ++ ext]

/-- The `while True` probe loop of `handle_duplicate_names`.  The Python loop
terminates because the filesystem is finite; here the same search runs on
explicit fuel, and `probeFrom_spec` below shows fuel `fs.length + 1` always
reaches a free candidate, so the fuel-exhausted fallback is unreachable. -/
def probeFrom (fs : FS) (dir : List String) (base ext : String) :
    Nat → Nat → FsPath
  | 0, k => dupCandidate dir base ext k
  | fuel + 1, k =>
    if fsExists fs (dupCandidate dir base ext k) then
      probeFrom fs dir base ext fuel (k + 1)
    else dupCandidate dir base ext k

/-- Embedding of `handle_duplicate_names` (QuickBatch.py lines 104-127): if
the target does not exist return it unchanged, else probe `base_1.ext,
base_2.ext, ...` and return the first candidate that does not exist. -/
def handle_duplicate_names (fs : FS) (target : FsPath) : FsPath :=
  if fsExists fs target then
    probeFrom fs target.dropLast (pyStem (target.getLastD ""))
      (pySuffix (target.getLastD "")) (fs.length + 1) 1
  else target

theorem dupCandidate_inj (dir : List String) (base ext : String) :
    Function.Injective (dupCandidate dir base ext) := by
  intro k1 k2 h
  unfold dupCandidate at h
  have h1 : base ++ "_" ++ natRepr k1 ++ ext = base ++ "_" ++ natRepr k2 ++ ext := by
    have := List.append_cancel_left h
    simpa using this
  have h2 : (base ++ "_" ++ natRepr k1 ++ ext).data
      = (base ++ "_" ++ natRepr k2 ++ ext).data := by rw [h1]
  simp only [String.data_append] at h2
  have h3 : (natRepr k1).data = (natRepr k2).data :=
    List.append_cancel_left (List.append_cancel_right h2)
  exact natRepr_inj (by
    have : natRepr k1 = natRepr k2 := by
      cases hk1 : natRepr k1
      cases hk2 : natRepr k2
      rw [hk1, hk2] at h3
      simp only [] at h3
      exact congrArg String.mk h3
    exact this)

theorem exists_free_candidate (fs : FS) (dir : List String) (base ext : String)
    (k0 : Nat) :
    ∃ j, j ≤ fs.length ∧ fsExists fs (dupCandidate dir base ext (k0 + j)) = false := by
  by_contra hcon
  push_neg at hcon
  have hall : ∀ j, j ≤ fs.length → fsExists fs (dupCandidate dir base ext (k0 + j)) = true := by
    intro j hj
    have := hcon j hj
    cases h : fsExists fs (dupCandidate dir base ext (k0 + j))
    · exact absurd h this
    · rfl
  set f : Nat → FsPath := fun j => dupCandidate dir base ext (k0 + j) with hf
  have hinj : Function.Injective f := by
    intro a b hab
    have := dupCandidate_inj dir base ext hab
    omega
  have hnodup : ((List.range (fs.length + 1)).map f).Nodup :=
    (List.nodup_range _).map hinj
  have hsub : ((List.range (fs.length + 1)).map f).toFinset ⊆ (fs.map Prod.fst).toFinset := by
    intro p hp
    rw [List.mem_toFinset] at hp ⊢
    obtain ⟨j, hj, hjp⟩ := List.mem_map.mp hp
    rw [List.mem_range] at hj
    subst hjp
    exact fsExists_true_mem fs _ (hall j (by omega))
  have hcard1 : ((List.range (fs.length + 1)).map f).toFinset.card = fs.length + 1 := by
    rw [List.toFinset_card_of_nodup hnodup]
    simp
  have hcard2 : (fs.map Prod.fst).toFinset.card ≤ fs.length := by
    calc (fs.map Prod.fst).toFinset.card ≤ (fs.map Prod.fst).length :=
          (fs.map Prod.fst).toFinset_card_le
    _ = fs.length := by simp
  have := Finset.card_le_card hsub
  omega

theorem probeFrom_spec (fs : FS) (dir : List String) (base ext : String) :
    ∀ fuel k,
      (∃ j, j < fuel ∧ fsExists fs (dupCandidate dir base ext (k + j)) = false) →
      ∃ m, k ≤ m ∧ probeFrom fs dir base ext fuel k = dupCandidate dir base ext m ∧
        fsExists fs (dupCandidate dir base ext m) = false ∧
        ∀ i, k ≤ i → i < m → fsExists fs (dupCandidate dir base ext i) = true := by
  intro fuel
  induction fuel with
  | zero =>
    intro k h
    obtain ⟨j, hj, _⟩ := h
    omega
  | succ fuel ih =>
    intro k h
    by_cases hk : fsExists fs (dupCandidate dir base ext k) = true
    · have hstep : probeFrom fs dir base ext (fuel + 1) k
          = probeFrom fs dir base ext fuel (k + 1) := by
        simp [probeFrom, hk]
      obtain ⟨j, hj, hfree⟩ := h
      have hj0 : j ≠ 0 := by
        intro h0
        subst h0
        simp only [Nat.add_zero] at hfree
        rw [hk] at hfree
        exact Bool.noConfusion hfree
      have hnext : ∃ j2, j2 < fuel ∧
          fsExists fs (dupCandidate dir base ext (k + 1 + j2)) = false := by
        refine ⟨j - 1, by omega, ?_⟩
        have : k + 1 + (j - 1) = k + j := by omega
        rw [this]
        exact hfree
      obtain ⟨m, hm1, hm2, hm3, hm4⟩ := ih (k + 1) hnext
      refine ⟨m, by omega, by rw [hstep]; exact hm2, hm3, ?_⟩
      intro i hi1 hi2
      rcases Nat.eq_or_lt_of_le hi1 with hik | hik
      · rw [← hik]; exact hk
      · exact hm4 i (by omega) hi2
    · have hk2 : fsExists fs (dupCandidate dir base ext k) = false := by
        cases h2 : fsExists fs (dupCandidate dir base ext k)
        · rfl
        · exact absurd h2 hk
      refine ⟨k, le_refl k, ?_, hk2, ?_⟩
      · simp [probeFrom, hk2]
      · intro i hi1 hi2
        omega

theorem handle_duplicate_names_spec (fs : FS) (target : FsPath)
    (h : fsExists fs target = true) :
    ∃ k, 1 ≤ k ∧
      handle_duplicate_names fs target
        = dupCandidate target.dropLast (pyStem (target.getLastD ""))
            (pySuffix (target.getLastD "")) k ∧
      fsExists fs (dupCandidate target.dropLast (pyStem (target.getLastD ""))
        (pySuffix (target.getLastD "")) k) = false ∧
      ∀ j, 1 ≤ j → j < k →
        fsExists fs (dupCandidate target.dropLast (pyStem (target.getLastD ""))
          (pySuffix (target.getLastD "")) j) = true := by
  obtain ⟨j, hj, hfree⟩ := exists_free_candidate fs target.dropLast
    (pyStem (target.getLastD "")) (pySuffix (target.getLastD "")) 1
  obtain ⟨m, hm0, hm1, hm2, hm3⟩ := probeFrom_spec fs target.dropLast
    (pyStem (target.getLastD "")) (pySuffix (target.getLastD ""))
    (fs.length + 1) 1 ⟨j, by omega, hfree⟩
  refine ⟨m, hm0, ?_, hm2, hm3⟩
  unfold handle_duplicate_names
  rw [h]
  simpa using hm1

/-- The duplicate-name resolver always returns a path that does not exist in
the filesystem passed to it. -/
theorem handle_duplicate_names_free (fs : FS) (target : FsPath) :
    fsExists fs (handle_duplicate_names fs target) = false := by
  by_cases h : fsExists fs target = true
  · obtain ⟨k, _, heq, hfree, _⟩ := handle_duplicate_names_spec fs target h
    rw [heq]
    exact hfree
  · have h2 : fsExists fs target = false := by
      cases h2 : fsExists fs target
      · rfl
      · exact absurd h2 h
    unfold handle_duplicate_names
    rw [h2]
    simpa using h2

/-- C8: the duplicate-name resolver returns the target path unchanged when no
file exists there; otherwise it returns `base_k.ext` where `k` is the smallest
positive integer whose candidate does not exist, probing 1, 2, 3, ... in order
with no integer skipped. -/
theorem c8_duplicate_resolver_least_free (fs : FS) (target : FsPath) :
    (fsExists fs target = false → handle_duplicate_names fs target = target) ∧
    (fsExists fs target = true →
      ∃ k, 1 ≤ k ∧
        handle_duplicate_names fs target
          = dupCandidate target.dropLast (pyStem (target.getLastD ""))
              (pySuffix (target.getLastD "")) k ∧
        fsExists fs (dupCandidate target.dropLast (pyStem (target.getLastD ""))
          (pySuffix (target.getLastD "")) k) = false ∧
        ∀ j, 1 ≤ j → j < k →
          fsExists fs (dupCandidate target.dropLast (pyStem (target.getLastD ""))
            (pySuffix (target.getLastD "")) j) = true) := by
  constructor
  · intro h
    unfold handle_duplicate_names
    rw [h]
    simp
  · exact handle_duplicate_names_spec fs target

/-- Witness for C8 at the spec's own example: with `a.mp4` and `a_1.mp4`
both existing, the resolver returns `a_2.mp4`; a fresh name is unchanged. -/
theorem c8_duplicate_resolver_least_free_witness :
    fsExists [(["a.mp4"], ([] : Content)), (["a_1.mp4"], [])] ["a.mp4"] = true ∧
    (∃ k, 1 ≤ k ∧
      handle_duplicate_names [(["a.mp4"], ([] : Content)), (["a_1.mp4"], [])] ["a.mp4"]
        = dupCandidate (["a.mp4"] : FsPath).dropLast
            (pyStem ((["a.mp4"] : FsPath).getLastD ""))
            (pySuffix ((["a.mp4"] : FsPath).getLastD "")) k ∧
      fsExists [(["a.mp4"], ([] : Content)), (["a_1.mp4"], [])]
        (dupCandidate (["a.mp4"] : FsPath).dropLast
          (pyStem ((["a.mp4"] : FsPath).getLastD ""))
          (pySuffix ((["a.mp4"] : FsPath).getLastD "")) k) = false ∧
      ∀ j, 1 ≤ j → j < k →
        fsExists [(["a.mp4"], ([] : Content)), (["a_1.mp4"], [])]
          (dupCandidate (["a.mp4"] : FsPath).dropLast
            (pyStem ((["a.mp4"] : FsPath).getLastD ""))
            (pySuffix ((["a.mp4"] : FsPath).getLastD "")) j) = true) ∧
    handle_duplicate_names [(["a.mp4"], ([] : Content)), (["a_1.mp4"], [])] ["a.mp4"]
      = ["a_2.mp4"] ∧
    handle_duplicate_names [(["a.mp4"], ([] : Content)), (["a_1.mp4"], [])] ["b.mp4"]
      = ["b.mp4"] :=
  ⟨by decide,
   (c8_duplicate_resolver_least_free [(["a.mp4"], ([] : Content)), (["a_1.mp4"], [])]
     ["a.mp4"]).2 (by decide),
   by decide, by decide⟩

/-- ASCII decimal digit, the class `\d` of the source's regular expressions
read over ASCII (code points 48-57). -/
def isDigitCh (c : Char) : Bool := 48 ≤ c.toNat && c.toNat ≤ 57

/-- ASCII letter, the class `[a-zA-Z]` (code points 97-122 and 65-90). -/
def isAsciiLetter (c : Char) : Bool :=
  (97 ≤ c.toNat && c.toNat ≤ 122) || (65 ≤ c.toNat && c.toNat ≤ 90)

/-- Consume one expected literal character. -/
def expectChar (c : Char) : List Char → Option (List Char)
  | x :: r => if x = c then some r else none
  | [] => none

/-- Consume a maximal nonempty run of digits (`\d+`).  Greedy matching with
no backtracking is exact here because in every use the character after the
run is required to be a non-digit literal, so a shorter run can never
succeed where the maximal one fails. -/
def takeDigits1 (cs : List Char) : Option (List Char × List Char) :=
  let ds := cs.takeWhile isDigitCh
  if ds.isEmpty then none else some (ds, cs.dropWhile isDigitCh)

/-- Consume a maximal run of at least two letters (`[a-zA-Z]{2,}`); greedy is
exact because the following required literal `_` is not a letter. -/
def takeLetters2 (cs : List Char) : Option (List Char × List Char) :=
  let ls := cs.takeWhile isAsciiLetter
  if ls.length < 2 then none else some (ls, cs.dropWhile isAsciiLetter)

/-- Consume exactly two letters (`[a-zA-Z]{2}`). -/
def expectTwoLetters : List Char → Option (List Char × List Char)
  | l1 :: l2 :: r =>
    if isAsciiLetter l1 && isAsciiLetter l2 then some ([l1, l2], r) else none
  | _ => none

/-- Nonempty all-digit remainder (`\d+$`: greedy digits followed by end of
input). -/
def endDigits1 (cs : List Char) : Option Unit :=
  if cs.isEmpty then none
  else if cs.all isDigitCh then some () else none

/-- Match of QuickBatch.py's structured pattern
`_(\d+s)_([a-zA-Z]\x7b2,\x7d)_(\d+x\d+)` at the head of `cs`, returning the
language group.  Mirrors the Python regex engine exactly: each quantifier
here is followed by a literal its class excludes, so greedy matching without
backtracking coincides with the engine's backtracking search. -/
def qbSegAt (cs : List Char) : Option (List Char) :=
  (expectChar '_' cs).bind fun r =>
  (takeDigits1 r).bind fun dr =>
  (expectChar 's' dr.2).bind fun r1 =>
  (expectChar '_' r1).bind fun r2 =>
  (takeLetters2 r2).bind fun lr =>
  (expectChar '_' lr.2).bind fun r4 =>
  (takeDigits1 r4).bind fun er =>
  (expectChar 'x' er.2).bind fun r6 =>
  (takeDigits1 r6).map fun _ => lr.1

/-- Leftmost match of the QuickBatch structured pattern (`re.search`): try
every start position from the left, return the first match's language group. -/
def qbSearch : List Char → Option (List Char)
  | [] => none
  | c :: cs =>
    match qbSegAt (c :: cs) with
    | some ls => some ls
    | none => qbSearch cs

/-- Match of video_renamer.py's structured pattern
`_(\d+s)_([a-zA-Z]\x7b2\x7d)_(\d+x\d+)$` at the head of `cs`: exactly two
letters, and the final digit run must end the stem. -/
def vrSegAt (cs : List Char) : Option (List Char) :=
  (expectChar '_' cs).bind fun r =>
  (takeDigits1 r).bind fun dr =>
  (expectChar 's' dr.2).bind fun r1 =>
  (expectChar '_' r1).bind fun r2 =>
  (expectTwoLetters r2).bind fun lr =>
  (expectChar '_' lr.2).bind fun r4 =>
  (takeDigits1 r4).bind fun er =>
  (expectChar 'x' er.2).bind fun r6 =>
  (endDigits1 r6).map fun _ => lr.1

/-- Leftmost match of the video_renamer structured pattern. -/
def vrSearch : List Char → Option (List Char)
  | [] => none
  | c :: cs =>
    match vrSegAt (c :: cs) with
    | some ls => some ls
    | none => vrSearch cs

/-- The prefix rule `^([a-zA-Z]\x7b2\x7d)_`, identical in both files: two
leading letters followed by an underscore. -/
def twoLetterHeading (stem : List Char) : Option (List Char) :=
  match stem with
  | a :: b :: '_' :: _ =>
    if isAsciiLetter a && isAsciiLetter b then some [a, b] else none
  | _ => none

/-- Python `str.lower()` over ASCII letters. -/
def listToLower (cs : List Char) : List Char := cs.map Char.toLower

/-- Embedding of `extract_language_prefix` from QuickBatch.py (lines 41-70):
structured pattern anywhere in the stem first, then the two-letter leading
pattern, then the default `"en"`. -/
def extract_language_qb (filename : String) : String :=
  let stem := pyStemList filename.data
  match qbSearch stem with
  | some ls => ⟨listToLower ls⟩
  | none =>
    match twoLetterHeading stem with
    | some ab => ⟨listToLower ab⟩
    | none => "en"

/-- Embedding of `extract_language_prefix` from video_renamer.py (lines
41-70), whose structured pattern requires exactly two letters and anchors the
segment at the end of the stem. -/
def extract_language_vr (filename : String) : String :=
  let stem := pyStemList filename.data
  match vrSearch stem with
  | some ls => ⟨listToLower ls⟩
  | none =>
    match twoLetterHeading stem with
    | some ab => ⟨listToLower ab⟩
    | none => "en"

example : extract_language_qb "fr_clip.mp4" = "fr" := by decide
example : extract_language_qb "clip_30s_de_1920x1080.mp4" = "de" := by decide
example : extract_language_qb "clip.mp4" = "en" := by decide
example : extract_language_vr "fr_clip.mp4" = "fr" := by decide
example : extract_language_vr "clip_30s_de_1920x1080.mp4" = "de" := by decide
example : extract_language_vr "clip.mp4" = "en" := by decide
example : extract_language_qb "ru_clip_30s_eng_1920x1080.mp4" = "eng" := by decide
example : extract_language_vr "ru_clip_30s_eng_1920x1080.mp4" = "ru" := by decide

/-- A structured segment in a stem, written from the spec's description: a
segment `_<digits>s_<letters of length at least two>_<digits>x<digits>`
somewhere in the stem, `ls` being the letters (language) group. -/
def StructSegAt (stem pre ds ls es gs post : List Char) : Prop :=
  stem = pre ++ '_' :: (ds ++ 's' :: '_' :: (ls ++ '_' :: (es ++ 'x' :: (gs ++ post)))) ∧
  ds ≠ [] ∧ (∀ c ∈ ds, isDigitCh c = true) ∧
  2 ≤ ls.length ∧ (∀ c ∈ ls, isAsciiLetter c = true) ∧
  es ≠ [] ∧ (∀ c ∈ es, isDigitCh c = true) ∧
  gs ≠ [] ∧ (∀ c ∈ gs, isDigitCh c = true)

theorem takeWhile_stops {α : Type} (p : α → Bool) (xs : List α) (y : α) (ys : List α)
    (hx : ∀ c ∈ xs, p c = true) (hy : p y = false) :
    (xs ++ y :: ys).takeWhile p = xs ∧ (xs ++ y :: ys).dropWhile p = y :: ys := by
  induction xs with
  | nil => simp [List.takeWhile_cons, List.dropWhile_cons, hy]
  | cons a as ih =>
    have ha : p a = true := hx a (by simp)
    have ih2 := ih (fun c hc => hx c (by simp [hc]))
    simp only [List.cons_append, List.takeWhile_cons, List.dropWhile_cons, ha, if_true]
    exact ⟨by rw [ih2.1], by rw [ih2.2]⟩

theorem takeWhile_all {α : Type} (p : α → Bool) (xs : List α)
    (hx : ∀ c ∈ xs, p c = true) :
    xs.takeWhile p = xs ∧ xs.dropWhile p = [] := by
  induction xs with
  | nil => simp
  | cons a as ih =>
    have ha : p a = true := hx a (by simp)
    have ih2 := ih (fun c hc => hx c (by simp [hc]))
    simp only [List.takeWhile_cons, List.dropWhile_cons, ha, if_true]
    exact ⟨by rw [ih2.1], ih2.2⟩

theorem expectChar_eq_some {c : Char} {cs r : List Char} :
    expectChar c cs = some r ↔ cs = c :: r := by
  cases cs with
  | nil => simp [expectChar]
  | cons x xs =>
    by_cases hx : x = c
    · subst hx
      simp [expectChar]
    · simp [expectChar, hx]

theorem takeDigits1_sound {cs ds r : List Char}
    (h : takeDigits1 cs = some (ds, r)) :
    cs = ds ++ r ∧ ds ≠ [] ∧ ∀ c ∈ ds, isDigitCh c = true := by
  unfold takeDigits1 at h
  by_cases he : (cs.takeWhile isDigitCh).isEmpty
  · simp [he] at h
  · simp only [he, if_neg, Bool.false_eq_true, not_false_eq_true, if_false,
      Option.some.injEq, Prod.mk.injEq] at h
    obtain ⟨h1, h2⟩ := h
    subst h1
    subst h2
    refine ⟨(List.takeWhile_append_dropWhile _ _).symm, ?_, ?_⟩
    · intro hnil
      rw [hnil] at he
      exact he rfl
    · intro c hc
      exact List.mem_takeWhile_imp hc

theorem takeDigits1_run {ds : List Char} {y : Char} {ys : List Char}
    (hds : ds ≠ []) (hall : ∀ c ∈ ds, isDigitCh c = true) (hy : isDigitCh y = false) :
    takeDigits1 (ds ++ y :: ys) = some (ds, y :: ys) := by
  obtain ⟨tw, dw⟩ := takeWhile_stops isDigitCh ds y ys hall hy
  unfold takeDigits1
  simp only [tw, dw]
  have : ds.isEmpty = false := by
    cases ds
    · exact absurd rfl hds
    · rfl
  simp [this]

theorem takeDigits1_isSome_of_head {g : Char} {gs : List Char}
    (hg : isDigitCh g = true) :
    ∃ pr, takeDigits1 (g :: gs) = some pr := by
  unfold takeDigits1
  simp only [List.takeWhile_cons, hg, if_true]
  exact ⟨_, rfl⟩

theorem takeLetters2_sound {cs ls r : List Char}
    (h : takeLetters2 cs = some (ls, r)) :
    cs = ls ++ r ∧ 2 ≤ ls.length ∧ ∀ c ∈ ls, isAsciiLetter c = true := by
  unfold takeLetters2 at h
  by_cases he : (cs.takeWhile isAsciiLetter).length < 2
  · simp [he] at h
  · simp only [he, if_false, Option.some.injEq, Prod.mk.injEq] at h
    obtain ⟨h1, h2⟩ := h
    subst h1
    subst h2
    exact ⟨(List.takeWhile_append_dropWhile _ _).symm, by omega,
      fun c hc => List.mem_takeWhile_imp hc⟩

theorem takeLetters2_run {ls : List Char} {y : Char} {ys : List Char}
    (hlen : 2 ≤ ls.length) (hall : ∀ c ∈ ls, isAsciiLetter c = true)
    (hy : isAsciiLetter y = false) :
    takeLetters2 (ls ++ y :: ys) = some (ls, y :: ys) := by
  obtain ⟨tw, dw⟩ := takeWhile_stops isAsciiLetter ls y ys hall hy
  unfold takeLetters2
  simp only [tw, dw]
  have : ¬ ls.length < 2 := by omega
  simp [this]

theorem expectTwoLetters_sound {cs ab r : List Char}
    (h : expectTwoLetters cs = some (ab, r)) :
    ∃ l1 l2, cs = l1 :: l2 :: r ∧ ab = [l1, l2] ∧
      isAsciiLetter l1 = true ∧ isAsciiLetter l2 = true := by
  match cs, h with
  | l1 :: l2 :: rest, h =>
    unfold expectTwoLetters at h
    by_cases hl : isAsciiLetter l1 && isAsciiLetter l2
    · simp only [hl, if_true, Option.some.injEq, Prod.mk.injEq] at h
      obtain ⟨h1, h2⟩ := h
      subst h2
      refine ⟨l1, l2, rfl, h1.symm, ?_, ?_⟩
      · exact (Bool.and_eq_true _ _).mp hl |>.1
      · exact (Bool.and_eq_true _ _).mp hl |>.2
    · simp [hl] at h

theorem endDigits1_sound {cs : List Char} (h : endDigits1 cs = some ()) :
    cs ≠ [] ∧ ∀ c ∈ cs, isDigitCh c = true := by
  unfold endDigits1 at h
  by_cases he : cs.isEmpty
  · simp [he] at h
  · by_cases ha : cs.all isDigitCh
    · refine ⟨?_, List.all_eq_true.mp ha⟩
      intro hnil
      rw [hnil] at he
      exact he rfl
    · simp [he, ha] at h

theorem expectChar_cons (c : Char) (r : List Char) : expectChar c (c :: r) = some r := by
  simp [expectChar]

theorem qbSegAt_sound {cs ls : List Char} (h : qbSegAt cs = some ls) :
    ∃ ds es gs post, StructSegAt cs [] ds ls es gs post := by
  unfold qbSegAt at h
  rw [Option.bind_eq_some] at h
  obtain ⟨r, hr, h⟩ := h
  rw [expectChar_eq_some] at hr
  rw [Option.bind_eq_some] at h
  obtain ⟨dr, hdr, h⟩ := h
  obtain ⟨ds, r1x⟩ := dr
  obtain ⟨hreq, hds, hdig⟩ := takeDigits1_sound hdr
  rw [Option.bind_eq_some] at h
  obtain ⟨r1, hr1, h⟩ := h
  rw [expectChar_eq_some] at hr1
  rw [Option.bind_eq_some] at h
  obtain ⟨r2, hr2, h⟩ := h
  rw [expectChar_eq_some] at hr2
  rw [Option.bind_eq_some] at h
  obtain ⟨lr, hlr, h⟩ := h
  obtain ⟨ls0, r3⟩ := lr
  obtain ⟨hr2eq, hlen, hlet⟩ := takeLetters2_sound hlr
  rw [Option.bind_eq_some] at h
  obtain ⟨r4, hr4, h⟩ := h
  rw [expectChar_eq_some] at hr4
  rw [Option.bind_eq_some] at h
  obtain ⟨er, her, h⟩ := h
  obtain ⟨es, r5⟩ := er
  obtain ⟨hr4eq, hes, hedig⟩ := takeDigits1_sound her
  rw [Option.bind_eq_some] at h
  obtain ⟨r6, hr6, h⟩ := h
  rw [expectChar_eq_some] at hr6
  rw [Option.map_eq_some'] at h
  obtain ⟨gr, hgr, hls⟩ := h
  obtain ⟨gs, post⟩ := gr
  obtain ⟨hr6eq, hgs, hgdig⟩ := takeDigits1_sound hgr
  simp only [] at hr1 hr4 hr6 hls
  subst hls
  refine ⟨ds, es, gs, post, ?_, hds, hdig, hlen, hlet, hes, hedig, hgs, hgdig⟩
  rw [hr, hreq, hr1, hr2, hr2eq, hr4, hr4eq, hr6, hr6eq]
  simp

theorem qbSegAt_complete {ds ls es gs post : List Char}
    (hds : ds ≠ []) (hdig : ∀ c ∈ ds, isDigitCh c = true)
    (hlen : 2 ≤ ls.length) (hlet : ∀ c ∈ ls, isAsciiLetter c = true)
    (hes : es ≠ []) (hedig : ∀ c ∈ es, isDigitCh c = true)
    (hgs : gs ≠ []) (hgdig : ∀ c ∈ gs, isDigitCh c = true) :
    qbSegAt ('_' :: (ds ++ 's' :: '_' :: (ls ++ '_' :: (es ++ 'x' :: (gs ++ post)))))
      = some ls := by
  obtain ⟨g, gsr, hgseq⟩ : ∃ g gsr, gs = g :: gsr := by
    cases gs with
    | nil => exact absurd rfl hgs
    | cons a b => exact ⟨a, b, rfl⟩
  subst hgseq
  have hg : isDigitCh g = true := hgdig g (by simp)
  obtain ⟨pr, hpr⟩ := @takeDigits1_isSome_of_head g (gsr ++ post) hg
  simp only [qbSegAt, expectChar_cons, Option.some_bind,
    takeDigits1_run hds hdig (by decide : isDigitCh 's' = false),
    takeLetters2_run hlen hlet (by decide : isAsciiLetter '_' = false),
    takeDigits1_run hes hedig (by decide : isDigitCh 'x' = false),
    List.cons_append, hpr, Option.map_some']

theorem qbSearch_cons (c : Char) (cs : List Char) :
    qbSearch (c :: cs) = match qbSegAt (c :: cs) with
      | some ls => some ls
      | none => qbSearch cs := rfl

theorem qbSearch_sound {cs ls : List Char} (h : qbSearch cs = some ls) :
    ∃ pre ds es gs post, StructSegAt cs pre ds ls es gs post := by
  induction cs with
  | nil => simp [qbSearch] at h
  | cons c cs ih =>
    rw [qbSearch_cons] at h
    cases hseg : qbSegAt (c :: cs) with
    | some l =>
      rw [hseg] at h
      simp only [Option.some.injEq] at h
      subst h
      obtain ⟨ds, es, gs, post, hsegat⟩ := qbSegAt_sound hseg
      exact ⟨[], ds, es, gs, post, hsegat⟩
    | none =>
      rw [hseg] at h
      obtain ⟨pre, ds, es, gs, post, hstem, hrest⟩ := ih h
      exact ⟨c :: pre, ds, es, gs, post, by rw [List.cons_append, ← hstem], hrest⟩

theorem qbSearch_complete {pre ds ls es gs post : List Char}
    (hds : ds ≠ []) (hdig : ∀ c ∈ ds, isDigitCh c = true)
    (hlen : 2 ≤ ls.length) (hlet : ∀ c ∈ ls, isAsciiLetter c = true)
    (hes : es ≠ []) (hedig : ∀ c ∈ es, isDigitCh c = true)
    (hgs : gs ≠ []) (hgdig : ∀ c ∈ gs, isDigitCh c = true) :
    ∃ res, qbSearch
      (pre ++ '_' :: (ds ++ 's' :: '_' :: (ls ++ '_' :: (es ++ 'x' :: (gs ++ post)))))
      = some res := by
  induction pre with
  | nil =>
    refine ⟨ls, ?_⟩
    rw [List.nil_append, qbSearch_cons,
      qbSegAt_complete hds hdig hlen hlet hes hedig hgs hgdig]
  | cons c pre ih =>
    obtain ⟨res, hres⟩ := ih
    rw [List.cons_append]
    cases hseg : qbSegAt (c :: (pre ++ '_' ::
        (ds ++ 's' :: '_' :: (ls ++ '_' :: (es ++ 'x' :: (gs ++ post)))))) with
    | some l => exact ⟨l, by rw [qbSearch_cons, hseg]⟩
    | none => exact ⟨res, by rw [qbSearch_cons, hseg]; exact hres⟩

/-- Every match of the video_renamer structured pattern is also a match of
the QuickBatch structured pattern, with the same language group. -/
theorem qbSegAt_of_vrSegAt {cs ls : List Char} (h : vrSegAt cs = some ls) :
    qbSegAt cs = some ls := by
  unfold vrSegAt at h
  rw [Option.bind_eq_some] at h
  obtain ⟨r, hr, h⟩ := h
  rw [Option.bind_eq_some] at h
  obtain ⟨dr, hdr, h⟩ := h
  rw [Option.bind_eq_some] at h
  obtain ⟨r1, hr1, h⟩ := h
  rw [Option.bind_eq_some] at h
  obtain ⟨r2, hr2, h⟩ := h
  rw [expectChar_eq_some] at hr2
  rw [Option.bind_eq_some] at h
  obtain ⟨lr, hlr, h⟩ := h
  obtain ⟨ab, rr⟩ := lr
  obtain ⟨l1, l2, hr2eq, habeq, hl1, hl2⟩ := expectTwoLetters_sound hlr
  rw [Option.bind_eq_some] at h
  obtain ⟨r4, hr4, h⟩ := h
  rw [expectChar_eq_some] at hr4
  rw [Option.bind_eq_some] at h
  obtain ⟨er, her, h⟩ := h
  rw [Option.bind_eq_some] at h
  obtain ⟨r6, hr6, h⟩ := h
  rw [Option.map_eq_some'] at h
  obtain ⟨u, hu, hls⟩ := h
  obtain ⟨hr6ne, hr6dig⟩ := endDigits1_sound (by cases u; exact hu)
  simp only [] at hr4 hls
  subst hls
  subst habeq
  unfold qbSegAt
  rw [hr, Option.some_bind, hdr, Option.some_bind, hr1, Option.some_bind,
    expectChar_eq_some.mpr hr2, Option.some_bind]
  have hlet : takeLetters2 r2 = some ([l1, l2], '_' :: r4) := by
    rw [hr2eq, hr4]
    have := @takeLetters2_run [l1, l2] '_' r4
      (by simp) (by simp [hl1, hl2]) (by decide)
    simpa using this
  rw [hlet, Option.some_bind]
  simp only []
  rw [expectChar_cons, Option.some_bind, her, Option.some_bind,
    hr6, Option.some_bind]
  obtain ⟨tw, dw⟩ := takeWhile_all isDigitCh r6 hr6dig
  unfold takeDigits1
  simp only [tw, dw]
  have h6 : r6.isEmpty = false := by
    cases r6
    · exact absurd rfl hr6ne
    · rfl
  simp [h6]

theorem vrSearch_none_of_qbSearch_none {cs : List Char}
    (h : qbSearch cs = none) : vrSearch cs = none := by
  induction cs with
  | nil => rfl
  | cons c cs ih =>
    rw [qbSearch_cons] at h
    cases hseg : qbSegAt (c :: cs) with
    | some l => rw [hseg] at h; exact Option.noConfusion h
    | none =>
      rw [hseg] at h
      have hvr : vrSegAt (c :: cs) = none := by
        cases hv : vrSegAt (c :: cs) with
        | none => rfl
        | some l =>
          rw [qbSegAt_of_vrSegAt hv] at hseg
          exact Option.noConfusion hseg
      show (match vrSegAt (c :: cs) with
        | some ls => some ls
        | none => vrSearch cs) = none
      rw [hvr]
      exact ih h

/-- A stem contains a structured segment (in the spec's sense) somewhere. -/
def HasStructSeg (stem : List Char) : Prop :=
  ∃ pre ds ls es gs post, StructSegAt stem pre ds ls es gs post

instance (stem pre ds ls es gs post : List Char) :
    Decidable (StructSegAt stem pre ds ls es gs post) := by
  unfold StructSegAt
  infer_instance

/-- Branch evaluation for `extract_language_qb` once the structured search
result is known. -/
theorem extract_language_qb_eq (filename : String) :
    extract_language_qb filename
      = match qbSearch (pyStemList filename.data) with
        | some ls => (⟨listToLower ls⟩ : String)
        | none =>
          match twoLetterHeading (pyStemList filename.data) with
          | some ab => (⟨listToLower ab⟩ : String)
          | none => "en" := rfl

/-- Branch evaluation for `extract_language_vr` once the structured search
result is known. -/
theorem extract_language_vr_eq (filename : String) :
    extract_language_vr filename
      = match vrSearch (pyStemList filename.data) with
        | some ls => (⟨listToLower ls⟩ : String)
        | none =>
          match twoLetterHeading (pyStemList filename.data) with
          | some ab => (⟨listToLower ab⟩ : String)
          | none => "en" := rfl

theorem qbSearch_isSome_of_hasStructSeg {stem : List Char} (h : HasStructSeg stem) :
    ∃ res, qbSearch stem = some res := by
  obtain ⟨pre, ds, ls, es, gs, post, hstem, hds, hdig, hlen, hlet, hes, hedig, hgs, hgdig⟩ := h
  rw [hstem]
  exact qbSearch_complete hds hdig hlen hlet hes hedig hgs hgdig

/-- C6 (amended: this is the behaviour of QuickBatch.py's
`extract_language_prefix`; the video_renamer.py copy honours the structured
pattern only when the letters group has exactly two letters and the segment
ends the stem): for every filename whose stem contains a structured segment
`_<digits>s_<letters at least 2>_<digits>x<digits>` anywhere, the function
returns the lowercased letters group of a structured segment of the stem,
regardless of any two-letter leading prefix. -/
theorem c6_structured_pattern_wins_qb (filename : String)
    (h : HasStructSeg (pyStemList filename.data)) :
    ∃ pre ds ls es gs post,
      StructSegAt (pyStemList filename.data) pre ds ls es gs post ∧
      extract_language_qb filename = ⟨listToLower ls⟩ := by
  obtain ⟨res, hres⟩ := qbSearch_isSome_of_hasStructSeg h
  obtain ⟨pre, ds, es, gs, post, hseg⟩ := qbSearch_sound hres
  refine ⟨pre, ds, res, es, gs, post, hseg, ?_⟩
  rw [extract_language_qb_eq, hres]

/-- Witness for C6 at a concrete filename: the stem of
`ru_intro_30s_eng_1920x1080.mp4` contains the structured segment with letters
group `eng`, and the QuickBatch parser returns `"eng"`, not the leading
`"ru"`. -/
theorem c6_structured_pattern_wins_qb_witness :
    (∃ pre ds ls es gs post,
      StructSegAt (pyStemList ("ru_intro_30s_eng_1920x1080.mp4" : String).data)
        pre ds ls es gs post ∧
      extract_language_qb "ru_intro_30s_eng_1920x1080.mp4" = ⟨listToLower ls⟩) ∧
    extract_language_qb "ru_intro_30s_eng_1920x1080.mp4" = "eng" :=
  ⟨c6_structured_pattern_wins_qb "ru_intro_30s_eng_1920x1080.mp4"
    ⟨("ru_intro" : String).data, ("30" : String).data, ("eng" : String).data,
      ("1920" : String).data, ("1080" : String).data, [], by decide⟩,
   by decide⟩

/-- Counterexample to C6 as stated: the claim is about
`extract_language_prefix` of both source files, but video_renamer.py returns
the prefix-derived code `"ru"` on a filename whose stem contains a structured
segment with letters group `eng` (three letters, so its stricter pattern
does not match), instead of the segment's lowercased letters group. -/
theorem c6_counterexample_vr :
    StructSegAt (pyStemList ("ru_clip_30s_eng_1920x1080.mp4" : String).data)
      ("ru_clip" : String).data ("30" : String).data ("eng" : String).data
      ("1920" : String).data ("1080" : String).data [] ∧
    extract_language_vr "ru_clip_30s_eng_1920x1080.mp4" = "ru" ∧
    ("ru" : String) ≠ ⟨listToLower ("eng" : String).data⟩ :=
  ⟨by decide, by decide, by decide⟩

/-- C7 (amended: the two files' executable logic differs in exactly one
place, the structured-pattern regular expression of
`extract_language_prefix` — QuickBatch.py accepts two or more letters
anywhere in the stem, video_renamer.py exactly two letters anchored at the
stem's end; consequently the two functions agree on every filename whose
stem contains no structured segment, while filenames with a structured
segment can distinguish them): agreement on structured-segment-free
filenames. -/
theorem c7_agree_without_structured_segment (filename : String)
    (h : ¬ HasStructSeg (pyStemList filename.data)) :
    extract_language_qb filename = extract_language_vr filename := by
  have hqb : qbSearch (pyStemList filename.data) = none := by
    cases hq : qbSearch (pyStemList filename.data) with
    | none => rfl
    | some ls =>
      obtain ⟨pre, ds, es, gs, post, hseg⟩ := qbSearch_sound hq
      exact absurd ⟨pre, ds, ls, es, gs, post, hseg⟩ h
  have hvr : vrSearch (pyStemList filename.data) = none :=
    vrSearch_none_of_qbSearch_none hqb
  rw [extract_language_qb_eq, extract_language_vr_eq, hqb, hvr]

/-- Witness for C7 at concrete filenames without a structured segment: both
implementations agree on `fr_clip.mp4` (code from the two-letter prefix) and
on `clip.mp4` (default). -/
theorem c7_agree_without_structured_segment_witness :
    (¬ HasStructSeg (pyStemList ("fr_clip.mp4" : String).data)) ∧
    extract_language_qb "fr_clip.mp4" = extract_language_vr "fr_clip.mp4" ∧
    extract_language_qb "fr_clip.mp4" = "fr" := by
  have hnone : ¬ HasStructSeg (pyStemList ("fr_clip.mp4" : String).data) := by
    intro h
    obtain ⟨res, hres⟩ := qbSearch_isSome_of_hasStructSeg h
    rw [show qbSearch (pyStemList ("fr_clip.mp4" : String).data) = none by decide]
      at hres
    exact Option.noConfusion hres
  exact ⟨hnone, c7_agree_without_structured_segment "fr_clip.mp4" hnone, by decide⟩

/-- Counterexample to C7 as stated: the two implementations of
`extract_language_prefix` are not extensionally equal — on
`ru_clip_30s_eng_1920x1080.mp4` QuickBatch.py returns `"eng"` while
video_renamer.py returns `"ru"`. -/
theorem c7_counterexample_not_extensionally_equal :
    extract_language_qb "ru_clip_30s_eng_1920x1080.mp4" = "eng" ∧
    extract_language_vr "ru_clip_30s_eng_1920x1080.mp4" = "ru" ∧
    extract_language_qb "ru_clip_30s_eng_1920x1080.mp4"
      ≠ extract_language_vr "ru_clip_30s_eng_1920x1080.mp4" :=
  ⟨by decide, by decide, by decide⟩

/-- Match of the audio duration pattern `(\d+(?:s|sec))` with `re.IGNORECASE`
at the head of `cs` (QuickBatch.py line 178).  The alternation tries `s`
before `sec`, and `sec` begins with `s`, so the `sec` branch can never be the
one taken: the matched text is always the digit run followed by a single
`s`/`S`.  Greedy digits are exact because `s` is not a digit and nothing
follows the group. -/
def audioMatchAt (cs : List Char) : Option (List Char) :=
  let ds := cs.takeWhile isDigitCh
  if ds.isEmpty then none
  else
    match cs.dropWhile isDigitCh with
    | c :: _ => if c = 's' ∨ c = 'S' then some (ds ++ [c]) else none
    | [] => none

/-- Leftmost match of the audio duration pattern (`re.search`). -/
def audioSearch : List Char → Option (List Char)
  | [] => none
  | c :: cs =>
    match audioMatchAt (c :: cs) with
    | some m => some m
    | none => audioSearch cs

/-- Python `str.endswith("sec")`. -/
def endsWithSec (cs : List Char) : Bool :=
  match cs.reverse with
  | 'c' :: 'e' :: 's' :: _ => true
  | _ => false

/-- Python `str.replace("sec", "s")`: replace every non-overlapping
occurrence, scanning left to right. -/
def replaceSec : List Char → List Char
  | 's' :: 'e' :: 'c' :: rest => 's' :: replaceSec rest
  | c :: rest => c :: replaceSec rest
  | [] => []

/-- Embedding of `extract_duration_from_audio_name` (QuickBatch.py lines
165-186): search the stem for `digits + s/sec`, lowercase the match, then
normalise a `sec` ending to `s`; `None` when there is no match. -/
def extract_duration_from_audio_name (filename : String) : Option String :=
  match audioSearch (pyStemList filename.data) with
  | some m =>
    let d := listToLower m
    some ⟨if endsWithSec d then replaceSec d else d⟩
  | none => none

/-- The marker a stem yields: the lowercased leftmost match of the audio
duration pattern. -/
def audioMarkerOfStem (cs : List Char) : Option String :=
  (audioSearch cs).map (fun m => (⟨listToLower m⟩ : String))

example : extract_duration_from_audio_name "voice_30s.wav" = some "30s" := by decide
example : extract_duration_from_audio_name "voice_45SEC.wav" = some "45s" := by decide
example : extract_duration_from_audio_name "voice.wav" = none := by decide
example : extract_duration_from_audio_name "9s_30sec.wav" = some "9s" := by decide

theorem toLower_digit {c : Char} (h : isDigitCh c = true) : c.toLower = c := by
  simp only [isDigitCh, Bool.and_eq_true, decide_eq_true_eq] at h
  unfold Char.toLower
  have hno : ¬(c.toNat ≥ 65 ∧ c.toNat ≤ 90) := by omega
  simp [hno]

theorem listToLower_digits {ds : List Char} (h : ∀ c ∈ ds, isDigitCh c = true) :
    listToLower ds = ds := by
  unfold listToLower
  induction ds with
  | nil => rfl
  | cons a as ih =>
    have ha : a.toLower = a := toLower_digit (h a (by simp))
    have := ih (fun c hc => h c (by simp [hc]))
    simp [ha, this]

theorem audioMatchAt_sound {cs m : List Char} (h : audioMatchAt cs = some m) :
    ∃ ds c r, cs = ds ++ c :: r ∧ m = ds ++ [c] ∧ ds ≠ [] ∧
      (∀ x ∈ ds, isDigitCh x = true) ∧ (c = 's' ∨ c = 'S') := by
  unfold audioMatchAt at h
  by_cases he : (cs.takeWhile isDigitCh).isEmpty
  · simp [he] at h
  · simp only [he, Bool.false_eq_true, if_false] at h
    cases hd : cs.dropWhile isDigitCh with
    | nil => rw [hd] at h; exact Option.noConfusion h
    | cons c r =>
      rw [hd] at h
      by_cases hc : c = 's' ∨ c = 'S'
      · simp only [hc, if_true, Option.some.injEq] at h
        refine ⟨cs.takeWhile isDigitCh, c, r, ?_, h.symm, ?_, ?_, hc⟩
        · rw [← hd, List.takeWhile_append_dropWhile]
        · intro hnil
          rw [hnil] at he
          exact he rfl
        · intro x hx
          exact List.mem_takeWhile_imp hx
      · simp [hc] at h

theorem audioMatchAt_run {ds : List Char} {c : Char} {r : List Char}
    (hds : ds ≠ []) (hdig : ∀ x ∈ ds, isDigitCh x = true)
    (hc : c = 's' ∨ c = 'S') :
    audioMatchAt (ds ++ c :: r) = some (ds ++ [c]) := by
  have hcd : isDigitCh c = false := by
    rcases hc with h | h <;> subst h <;> decide
  obtain ⟨tw, dw⟩ := takeWhile_stops isDigitCh ds c r hdig hcd
  unfold audioMatchAt
  simp only [tw, dw]
  have : ds.isEmpty = false := by
    cases ds
    · exact absurd rfl hds
    · rfl
  simp [this, hc]

theorem audioMatchAt_nondigit {c : Char} {cs : List Char}
    (hc : isDigitCh c = false) : audioMatchAt (c :: cs) = none := by
  unfold audioMatchAt
  simp [List.takeWhile_cons, hc]

theorem audioSearch_cons (c : Char) (cs : List Char) :
    audioSearch (c :: cs) = match audioMatchAt (c :: cs) with
      | some m => some m
      | none => audioSearch cs := rfl

theorem audioSearch_sound {cs m : List Char} (h : audioSearch cs = some m) :
    ∃ pre ds c r, cs = pre ++ (ds ++ c :: r) ∧ m = ds ++ [c] ∧ ds ≠ [] ∧
      (∀ x ∈ ds, isDigitCh x = true) ∧ (c = 's' ∨ c = 'S') := by
  induction cs with
  | nil => simp [audioSearch] at h
  | cons a cs ih =>
    rw [audioSearch_cons] at h
    cases hm : audioMatchAt (a :: cs) with
    | some m2 =>
      rw [hm] at h
      simp only [Option.some.injEq] at h
      subst h
      obtain ⟨ds, c, r, h1, h2, h3, h4, h5⟩ := audioMatchAt_sound hm
      exact ⟨[], ds, c, r, by rw [List.nil_append, ← h1], h2, h3, h4, h5⟩
    | none =>
      rw [hm] at h
      obtain ⟨pre, ds, c, r, h1, h2, h3, h4, h5⟩ := ih h
      exact ⟨a :: pre, ds, c, r, by rw [List.cons_append, ← h1], h2, h3, h4, h5⟩

theorem endsWithSec_digits_s {ds : List Char} {c : Char}
    (hdig : ∀ x ∈ ds, isDigitCh x = true) (hc : c = 's' ∨ c = 'S') :
    endsWithSec (listToLower (ds ++ [c])) = false := by
  have hlow : listToLower (ds ++ [c]) = ds ++ [c.toLower] := by
    unfold listToLower
    rw [List.map_append]
    rw [show List.map Char.toLower ds = listToLower ds from rfl,
      listToLower_digits hdig]
    rfl
  have hcl : c.toLower = 's' := by
    rcases hc with h | h <;> subst h <;> decide
  rw [hlow, hcl]
  unfold endsWithSec
  rw [List.reverse_append]
  simp

theorem extract_duration_eq_marker (filename : String) :
    extract_duration_from_audio_name filename
      = audioMarkerOfStem (pyStemList filename.data) := by
  unfold extract_duration_from_audio_name audioMarkerOfStem
  cases hs : audioSearch (pyStemList filename.data) with
  | none => rfl
  | some m =>
    obtain ⟨pre, ds, c, r, h1, h2, h3, h4, h5⟩ := audioSearch_sound hs
    subst h2
    simp only [Option.map_some']
    rw [endsWithSec_digits_s h4 h5]
    simp

theorem listToLower_digits_s {N : List Char} {c : Char}
    (hdig : ∀ x ∈ N, isDigitCh x = true) (hc : c = 's' ∨ c = 'S') :
    listToLower (N ++ [c]) = N ++ ['s'] := by
  unfold listToLower
  rw [List.map_append]
  rw [show List.map Char.toLower N = listToLower N from rfl, listToLower_digits hdig]
  have hcl : c.toLower = 's' := by
    rcases hc with h | h <;> subst h <;> decide
  simp [hcl]

theorem digit_split (pre : List Char) :
    (∀ c ∈ pre, isDigitCh c = true) ∨
    ∃ d c r, pre = d ++ c :: r ∧ (∀ x ∈ d, isDigitCh x = true) ∧
      isDigitCh c = false := by
  induction pre with
  | nil => left; simp
  | cons a as ih =>
    by_cases ha : isDigitCh a = true
    · rcases ih with hall | ⟨d, c, r, h1, h2, h3⟩
      · left
        intro c hc
        rcases List.mem_cons.mp hc with h | h
        · rw [h]; exact ha
        · exact hall c h
      · right
        exact ⟨a :: d, c, r, by rw [h1, List.cons_append],
          fun x hx => by
            rcases List.mem_cons.mp hx with h | h
            · rw [h]; exact ha
            · exact h2 x h,
          h3⟩
    · right
      refine ⟨[], a, as, rfl, by simp, ?_⟩
      cases h : isDigitCh a
      · rfl
      · exact absurd h ha

theorem audioMatchAt_eval {d : List Char} {c : Char} {rest : List Char}
    (hd : ∀ x ∈ d, isDigitCh x = true) (hc : isDigitCh c = false) :
    audioMatchAt (d ++ c :: rest)
      = if d.isEmpty then none
        else if c = 's' ∨ c = 'S' then some (d ++ [c]) else none := by
  obtain ⟨tw, dw⟩ := takeWhile_stops isDigitCh d c rest hd hc
  unfold audioMatchAt
  simp only [tw, dw]

theorem audioMatchAt_align {pre N post1 post2 : List Char}
    (hN : N ≠ []) (hdig : ∀ x ∈ N, isDigitCh x = true)
    {s1 s2 : Char} (hs1 : s1 = 's' ∨ s1 = 'S') (hs2 : s2 = 's' ∨ s2 = 'S') :
    (audioMatchAt (pre ++ (N ++ s1 :: post1)) = none ∧
      audioMatchAt (pre ++ (N ++ s2 :: post2)) = none) ∨
    (∃ m1 m2, audioMatchAt (pre ++ (N ++ s1 :: post1)) = some m1 ∧
      audioMatchAt (pre ++ (N ++ s2 :: post2)) = some m2 ∧
      listToLower m1 = listToLower m2) := by
  have hs1d : isDigitCh s1 = false := by
    rcases hs1 with h | h <;> subst h <;> decide
  have hs2d : isDigitCh s2 = false := by
    rcases hs2 with h | h <;> subst h <;> decide
  rcases digit_split pre with hall | ⟨d, c, r, h1, h2, h3⟩
  · right
    have hpn : pre ++ N ≠ [] := by
      intro h
      exact hN (List.append_eq_nil.mp h).2
    have hpnd : ∀ x ∈ pre ++ N, isDigitCh x = true := by
      intro x hx
      rcases List.mem_append.mp hx with h | h
      · exact hall x h
      · exact hdig x h
    refine ⟨(pre ++ N) ++ [s1], (pre ++ N) ++ [s2], ?_, ?_, ?_⟩
    · rw [← List.append_assoc]
      exact audioMatchAt_run hpn hpnd hs1
    · rw [← List.append_assoc]
      exact audioMatchAt_run hpn hpnd hs2
    · rw [listToLower_digits_s hpnd hs1, listToLower_digits_s hpnd hs2]
  · subst h1
    have hshape : ∀ X : List Char, (d ++ c :: r) ++ X = d ++ c :: (r ++ X) := by
      intro X
      simp
    rw [hshape, hshape]
    rw [audioMatchAt_eval h2 h3, audioMatchAt_eval h2 h3]
    by_cases hde : d.isEmpty
    · left
      simp [hde]
    · by_cases hcs : c = 's' ∨ c = 'S'
      · right
        refine ⟨d ++ [c], d ++ [c], ?_, ?_, rfl⟩
        · simp [hde, hcs]
        · simp [hde, hcs]
      · left
        simp [hde, hcs]

theorem audioSearch_run {N : List Char} {sChar : Char} {post : List Char}
    (hN : N ≠ []) (hdig : ∀ x ∈ N, isDigitCh x = true)
    (hs : sChar = 's' ∨ sChar = 'S') :
    audioSearch (N ++ sChar :: post) = some (N ++ [sChar]) := by
  obtain ⟨n0, Nr, hNeq⟩ : ∃ n0 Nr, N = n0 :: Nr := by
    cases N with
    | nil => exact absurd rfl hN
    | cons a b => exact ⟨a, b, rfl⟩
  subst hNeq
  rw [List.cons_append, audioSearch_cons, ← List.cons_append,
    audioMatchAt_run hN hdig hs]

theorem audioSearch_align {pre N post : List Char} {s1 s2 e2 c2 : Char}
    (hN : N ≠ []) (hdig : ∀ x ∈ N, isDigitCh x = true)
    (hs1 : s1 = 's' ∨ s1 = 'S') (hs2 : s2 = 's' ∨ s2 = 'S') :
    Option.map listToLower (audioSearch (pre ++ (N ++ s1 :: post)))
      = Option.map listToLower (audioSearch (pre ++ (N ++ s2 :: e2 :: c2 :: post))) := by
  induction pre with
  | nil =>
    rw [List.nil_append, List.nil_append, audioSearch_run hN hdig hs1,
      audioSearch_run hN hdig hs2]
    simp only [Option.map_some']
    rw [listToLower_digits_s hdig hs1, listToLower_digits_s hdig hs2]
  | cons a pre ih =>
    rcases @audioMatchAt_align (a :: pre) N post (e2 :: c2 :: post) hN hdig
        s1 s2 hs1 hs2 with
      ⟨hA, hB⟩ | ⟨m1, m2, hA, hB, hm⟩
    · rw [List.cons_append] at hA hB
      rw [List.cons_append, List.cons_append, audioSearch_cons, audioSearch_cons,
        hA, hB]
      exact ih
    · rw [List.cons_append] at hA hB
      rw [List.cons_append, List.cons_append, audioSearch_cons, audioSearch_cons,
        hA, hB]
      simp [hm]

theorem audioSearch_value {pre N post : List Char} {sChar : Char}
    (hpre : ∀ x ∈ pre, isDigitCh x = false)
    (hN : N ≠ []) (hdig : ∀ x ∈ N, isDigitCh x = true)
    (hs : sChar = 's' ∨ sChar = 'S') :
    audioSearch (pre ++ (N ++ sChar :: post)) = some (N ++ [sChar]) := by
  induction pre with
  | nil => rw [List.nil_append]; exact audioSearch_run hN hdig hs
  | cons a pre ih =>
    have ha : isDigitCh a = false := hpre a (by simp)
    rw [List.cons_append, audioSearch_cons, audioMatchAt_nondigit ha]
    exact ih (fun x hx => hpre x (by simp [hx]))

/-- A digit immediately followed by `s` or `S` somewhere: exactly when the
audio duration pattern `\d+(?:s|sec)` (IGNORECASE) matches the stem. -/
def HasDigitS (cs : List Char) : Prop :=
  ∃ a d s b, cs = a ++ d :: s :: b ∧ isDigitCh d = true ∧ (s = 's' ∨ s = 'S')

theorem audioSearch_none_of_no_pattern {cs : List Char} (h : ¬ HasDigitS cs) :
    audioSearch cs = none := by
  cases hs : audioSearch cs with
  | none => rfl
  | some m =>
    obtain ⟨pre, ds, c, r, h1, h2, h3, h4, h5⟩ := audioSearch_sound hs
    rcases List.eq_nil_or_concat ds with hnil | ⟨ds2, d, hconcat⟩
    · exact absurd hnil h3
    · subst hconcat
      have hd : isDigitCh d = true := h4 d (by simp)
      refine absurd ⟨pre ++ ds2, d, c, r, ?_, hd, h5⟩ h
      rw [h1]
      simp

/-- C9 (amended: the marker is the leftmost occurrence's maximal digit run
followed by `s`; it equals `N` lowercased plus `s` only when no digit occurs
before that occurrence): `extract_duration_from_audio_name` lowercases the
leftmost `digits+s` match of the stem; the resulting marker is identical
whether that text continues as `s` or as `sec`, in any letter case; when the
stem's text before the occurrence of the digit string `N` is digit-free, the
marker is exactly `N` followed by `s`; stems without any digit directly
followed by `s`/`S` yield the sentinel `none`, which differs from every
concrete marker. -/
theorem c9_audio_duration_normalization :
    (∀ filename : String,
      extract_duration_from_audio_name filename
        = audioMarkerOfStem (pyStemList filename.data)) ∧
    (∀ pre N post : List Char, ∀ s1 s2 e2 c2 : Char,
      N ≠ [] → (∀ x ∈ N, isDigitCh x = true) →
      (s1 = 's' ∨ s1 = 'S') → (s2 = 's' ∨ s2 = 'S') →
      audioMarkerOfStem (pre ++ (N ++ s1 :: post))
        = audioMarkerOfStem (pre ++ (N ++ s2 :: e2 :: c2 :: post))) ∧
    (∀ pre N post : List Char, ∀ sChar : Char,
      (∀ x ∈ pre, isDigitCh x = false) →
      N ≠ [] → (∀ x ∈ N, isDigitCh x = true) →
      (sChar = 's' ∨ sChar = 'S') →
      audioMarkerOfStem (pre ++ (N ++ sChar :: post)) = some ⟨N ++ ['s']⟩) ∧
    (∀ cs : List Char, ¬ HasDigitS cs → audioMarkerOfStem cs = none) ∧
    (∀ cs : List Char, ∀ mk : String,
      audioMarkerOfStem cs = none → audioMarkerOfStem cs ≠ some mk) := by
  refine ⟨extract_duration_eq_marker, ?_, ?_, ?_, ?_⟩
  · intro pre N post s1 s2 e2 c2 hN hdig hs1 hs2
    unfold audioMarkerOfStem
    have halign := @audioSearch_align pre N post s1 s2 e2 c2 hN hdig hs1 hs2
    cases hA : audioSearch (pre ++ (N ++ s1 :: post)) with
    | none =>
      rw [hA] at halign
      cases hB : audioSearch (pre ++ (N ++ s2 :: e2 :: c2 :: post)) with
      | none => rfl
      | some m2 => rw [hB] at halign; exact absurd halign (by simp)
    | some m1 =>
      rw [hA] at halign
      cases hB : audioSearch (pre ++ (N ++ s2 :: e2 :: c2 :: post)) with
      | none => rw [hB] at halign; exact absurd halign (by simp)
      | some m2 =>
        rw [hB] at halign
        simp only [Option.map_some', Option.some.injEq] at halign
        simp [halign]
  · intro pre N post sChar hpre hN hdig hs
    unfold audioMarkerOfStem
    rw [audioSearch_value hpre hN hdig hs]
    simp only [Option.map_some', Option.some.injEq]
    rw [listToLower_digits_s hdig hs]
  · intro cs h
    unfold audioMarkerOfStem
    rw [audioSearch_none_of_no_pattern h]
    rfl
  · intro cs mk h
    rw [h]
    exact fun hcon => Option.noConfusion hcon

/-- Witness for C9 at concrete inputs: `mix_45s.wav` and `mix_45sec.wav`
yield the same marker `"45s"`; `voice.wav` yields the sentinel. -/
theorem c9_audio_duration_normalization_witness :
    audioMarkerOfStem (("mix_" : String).data
        ++ (("45" : String).data ++ 's' :: []))
      = audioMarkerOfStem (("mix_" : String).data
        ++ (("45" : String).data ++ 's' :: 'e' :: 'c' :: [])) ∧
    audioMarkerOfStem (("mix_" : String).data
        ++ (("45" : String).data ++ 's' :: [])) = some "45s" ∧
    extract_duration_from_audio_name "mix_45s.wav"
      = audioMarkerOfStem (pyStemList ("mix_45s.wav" : String).data) ∧
    extract_duration_from_audio_name "mix_45s.wav" = some "45s" ∧
    extract_duration_from_audio_name "mix_45sec.wav" = some "45s" :=
  ⟨c9_audio_duration_normalization.2.1 ("mix_" : String).data ("45" : String).data
      [] 's' 's' 'e' 'c' (by decide) (by decide) (Or.inl rfl) (Or.inl rfl),
   c9_audio_duration_normalization.2.2.1 ("mix_" : String).data ("45" : String).data
      [] 's' (by decide) (by decide) (by decide) (Or.inl rfl),
   c9_audio_duration_normalization.1 "mix_45s.wav",
   by decide, by decide⟩

/-- Counterexample to C9 as stated: the stem of `9s_30sec.wav` contains the
digit string `30` followed by `sec`, yet the function yields `"9s"` (the
leftmost match), not `"30s"`. -/
theorem c9_counterexample_earlier_match :
    pyStemList (("9s_30sec.wav" : String).data)
      = ("9s_" : String).data ++ ("30" : String).data ++ ("sec" : String).data ∧
    extract_duration_from_audio_name "9s_30sec.wav" = some "9s" ∧
    ("9s" : String) ≠ "30s" :=
  ⟨by decide, by decide, by decide⟩

/-- A duration grouping, as built by `find_audio_files` and
`find_video_files_in_subfolders`: keys are duration markers (`none` is the
sentinel for files with no marker), values are the file lists, in insertion
order like a Python dict. -/
abbrev Grouping := List (Option String × List String)

/-- Python `dict[k]` with default `[]` (covers both `d.get(k, [])` and the
indexings that the mode's emptiness guards keep from failing): value of the
first entry with key `k`. -/
def gLookup (g : Grouping) (k : Option String) : List String :=
  match g with
  | [] => []
  | (q, v) :: rest => if q = k then v else gLookup rest k

/-- Python `k in dict`. -/
def gHasKey (g : Grouping) (k : Option String) : Bool :=
  match g with
  | [] => false
  | (q, _) :: rest => q = k || gHasKey rest k

/-- The list `[d for d in groups.keys() if d is not None]` (QuickBatch.py
line 403). -/
def concreteKeys (g : Grouping) : List String :=
  (g.map Prod.fst).filterMap id

/-- The nested loop `for audio in audios: for video in videos: merge(video,
audio)`, as the list of attempted (video, audio) pairs in order. -/
def crossPairs (audios vids : List String) : List (String × String) :=
  audios.flatMap fun a => vids.map fun v => (v, a)

/-- Embedding of the pair-production logic of `sound_merge_mode`
(QuickBatch.py lines 402-442): the three-tier matching policy, returning the
(video, audio) pairs handed to `merge_audio_video` in execution order.
`sound_merge_mode` returns before this point when either grouping is empty,
so the `audio_by_duration[None]` indexing of tier 1 cannot fail there; it is
modelled with the empty-list default. -/
def matchPairs (ag vg : Grouping) : List (String × String) :=
  let audioDurations := concreteKeys ag
  if audioDurations.length = 0 then
    crossPairs (gLookup ag none) ((vg.map Prod.snd).flatten)
  else if audioDurations.length = 1 ∧ gHasKey ag none = false then
    crossPairs (gLookup ag (some (audioDurations.headD "")))
      (gLookup vg (some (audioDurations.headD ""))
        ++ (if gHasKey vg none then gLookup vg none else []))
  else
    audioDurations.flatMap fun d =>
      crossPairs (gLookup ag (some d)) (gLookup vg (some d))

example :
    matchPairs [(none, ["x.wav", "y.wav"])]
      [(some "30s", ["v1.mp4"]), (none, ["v2.mp4"])]
    = [("v1.mp4", "x.wav"), ("v2.mp4", "x.wav"),
       ("v1.mp4", "y.wav"), ("v2.mp4", "y.wav")] := by decide

example :
    matchPairs [(some "30s", ["a.wav"])]
      [(some "30s", ["v1.mp4", "v2.mp4"]), (none, ["v3.mp4"]), (some "45s", ["v4.mp4"])]
    = [("v1.mp4", "a.wav"), ("v2.mp4", "a.wav"), ("v3.mp4", "a.wav")] := by decide

example :
    matchPairs [(some "30s", ["a.wav"]), (some "45s", ["b.wav"])]
      [(some "30s", ["v1.mp4"]), (some "60s", ["v2.mp4"])]
    = [("v1.mp4", "a.wav")] := by decide

theorem crossPairs_mem (audios vids : List String) (v a : String) :
    (v, a) ∈ crossPairs audios vids ↔ a ∈ audios ∧ v ∈ vids := by
  unfold crossPairs
  rw [List.mem_flatMap]
  constructor
  · rintro ⟨x, hx, hmem⟩
    rw [List.mem_map] at hmem
    obtain ⟨y, hy, heq⟩ := hmem
    obtain ⟨h1, h2⟩ := Prod.mk.injEq .. ▸ heq
    cases heq
    exact ⟨hx, hy⟩
  · rintro ⟨ha, hv⟩
    exact ⟨a, ha, List.mem_map.mpr ⟨v, hv, rfl⟩⟩

theorem crossPairs_length (audios vids : List String) :
    (crossPairs audios vids).length = audios.length * vids.length := by
  unfold crossPairs
  induction audios with
  | nil => simp
  | cons a as ih =>
    simp only [List.flatMap_cons, List.length_append, List.length_map, ih,
      List.length_cons]
    ring

theorem gLookup_eq_nil_of_not_hasKey (g : Grouping) (k : Option String)
    (h : gHasKey g k = false) : gLookup g k = [] := by
  induction g with
  | nil => rfl
  | cons p rest ih =>
    obtain ⟨q, v⟩ := p
    simp only [gHasKey, Bool.or_eq_false_iff, decide_eq_false_iff_not] at h
    simp only [gLookup, if_neg h.1]
    exact ih h.2

/-- C5: when every audio file carries the sentinel (no concrete audio marker
exists) and both groupings are nonempty, the policy pairs every audio file
with every video file of every video group: the result is the full cross
product of cardinality audios times videos. -/
theorem c5_no_marker_audios_full_cross (ag vg : Grouping)
    (hall : ∀ p ∈ ag, p.1 = none)
    (hnodup : (ag.map Prod.fst).Nodup)
    (hne : ag ≠ []) (hvne : vg ≠ []) :
    matchPairs ag vg
      = crossPairs (ag.flatMap Prod.snd) ((vg.map Prod.snd).flatten) ∧
    (matchPairs ag vg).length
      = (ag.flatMap Prod.snd).length * ((vg.map Prod.snd).flatten).length ∧
    ∀ v a, (v, a) ∈ matchPairs ag vg
      ↔ a ∈ ag.flatMap Prod.snd ∧ v ∈ (vg.map Prod.snd).flatten := by
  obtain ⟨as, hag⟩ : ∃ as, ag = [(none, as)] := by
    cases ag with
    | nil => exact absurd rfl hne
    | cons p rest =>
      cases rest with
      | nil =>
        obtain ⟨k, v⟩ := p
        have hk : k = none := hall (k, v) (by simp)
        subst hk
        exact ⟨v, rfl⟩
      | cons q rest2 =>
        have h1 : p.1 = none := hall p (by simp)
        have h2 : q.1 = none := hall q (by simp)
        rw [List.map_cons, List.map_cons] at hnodup
        have := (List.nodup_cons.mp hnodup).1
        rw [h1, h2] at this
        exact absurd (by simp) this
  subst hag
  have hpairs : matchPairs [(none, as)] vg
      = crossPairs as ((vg.map Prod.snd).flatten) := by
    unfold matchPairs concreteKeys
    simp [gLookup]
  have hflat : ([(none, as)] : Grouping).flatMap Prod.snd = as := by simp
  rw [hflat, hpairs]
  exact ⟨rfl, crossPairs_length as _, fun v a => crossPairs_mem as _ v a⟩

/-- Witness for C5 at the spec's test case: two unmarked audios and two
videos (one marked, one not) give exactly the four cross-product pairs. -/
theorem c5_no_marker_audios_full_cross_witness :
    (∀ p ∈ ([(none, ["x.wav", "y.wav"])] : Grouping), p.1 = none) ∧
    (matchPairs [(none, ["x.wav", "y.wav"])]
        [(some "30s", ["v1.mp4"]), (none, ["v2.mp4"])]).length
      = (([(none, ["x.wav", "y.wav"])] : Grouping).flatMap Prod.snd).length
        * ((([(some "30s", ["v1.mp4"]), (none, ["v2.mp4"])] : Grouping).map
            Prod.snd).flatten).length ∧
    (matchPairs [(none, ["x.wav", "y.wav"])]
        [(some "30s", ["v1.mp4"]), (none, ["v2.mp4"])]).length = 4 :=
  ⟨by decide,
   (c5_no_marker_audios_full_cross [(none, ["x.wav", "y.wav"])]
     [(some "30s", ["v1.mp4"]), (none, ["v2.mp4"])]
     (by decide) (by decide) (by decide) (by decide)).2.1,
   by decide⟩

/-- C3: with exactly one concrete audio duration marker and no sentinel
audio, the policy pairs that audio group with the union of the video group
of the same marker and the unmarked video group, and with nothing else. -/
theorem c3_single_marker_union_cross (ag vg : Grouping) (d0 : String)
    (h1 : concreteKeys ag = [d0]) (h2 : gHasKey ag none = false) :
    matchPairs ag vg
      = crossPairs (gLookup ag (some d0))
          (gLookup vg (some d0) ++ gLookup vg none) ∧
    (matchPairs ag vg).length
      = (gLookup ag (some d0)).length
        * ((gLookup vg (some d0)).length + (gLookup vg none).length) ∧
    ∀ v a, (v, a) ∈ matchPairs ag vg
      ↔ a ∈ gLookup ag (some d0)
        ∧ (v ∈ gLookup vg (some d0) ∨ v ∈ gLookup vg none) := by
  have htarget :
      (gLookup vg (some d0)
        ++ (if gHasKey vg none then gLookup vg none else []))
      = gLookup vg (some d0) ++ gLookup vg none := by
    cases hv : gHasKey vg none
    · rw [gLookup_eq_nil_of_not_hasKey vg none hv]
      simp
    · simp
  have hpairs : matchPairs ag vg
      = crossPairs (gLookup ag (some d0))
          (gLookup vg (some d0) ++ gLookup vg none) := by
    unfold matchPairs
    rw [h1]
    rw [if_neg (by simp), if_pos (by simp [h2])]
    simp only [List.headD_cons]
    rw [htarget]
  refine ⟨hpairs, ?_, ?_⟩
  · rw [hpairs, crossPairs_length, List.length_append]
  · intro v a
    rw [hpairs, crossPairs_mem, List.mem_append]

/-- Witness for C3 at the spec's test case: one `30s` audio group, videos
split across `30s` (2 files), no marker (1 file) and `45s` (1 file) give
exactly the three pairs; the `45s` video contributes nothing. -/
theorem c3_single_marker_union_cross_witness :
    concreteKeys [(some "30s", ["a.wav"])] = ["30s"] ∧
    (∀ v a, (v, a) ∈ matchPairs [(some "30s", ["a.wav"])]
        [(some "30s", ["v1.mp4", "v2.mp4"]), (none, ["v3.mp4"]),
          (some "45s", ["v4.mp4"])]
      ↔ a ∈ gLookup ([(some "30s", ["a.wav"])] : Grouping) (some "30s")
        ∧ (v ∈ gLookup ([(some "30s", ["v1.mp4", "v2.mp4"]), (none, ["v3.mp4"]),
              (some "45s", ["v4.mp4"])] : Grouping) (some "30s")
          ∨ v ∈ gLookup ([(some "30s", ["v1.mp4", "v2.mp4"]), (none, ["v3.mp4"]),
              (some "45s", ["v4.mp4"])] : Grouping) none)) ∧
    matchPairs [(some "30s", ["a.wav"])]
        [(some "30s", ["v1.mp4", "v2.mp4"]), (none, ["v3.mp4"]),
          (some "45s", ["v4.mp4"])]
      = [("v1.mp4", "a.wav"), ("v2.mp4", "a.wav"), ("v3.mp4", "a.wav")] :=
  ⟨by decide,
   (c3_single_marker_union_cross [(some "30s", ["a.wav"])]
     [(some "30s", ["v1.mp4", "v2.mp4"]), (none, ["v3.mp4"]),
       (some "45s", ["v4.mp4"])] "30s" (by decide) (by decide)).2.2,
   by decide⟩

/-- C4: in every remaining case (several concrete audio markers, or a mix
not covered by the first two tiers), the policy pairs each concrete audio
marker group only with the video group of the identical marker, as a full
cross product per marker; markers with no counterpart contribute nothing. -/
theorem c4_strict_marker_matching (ag vg : Grouping)
    (hT1 : ¬ (concreteKeys ag).length = 0)
    (hT2 : ¬ ((concreteKeys ag).length = 1 ∧ gHasKey ag none = false)) :
    matchPairs ag vg
      = (concreteKeys ag).flatMap (fun d =>
          crossPairs (gLookup ag (some d)) (gLookup vg (some d))) ∧
    (matchPairs ag vg).length
      = ((concreteKeys ag).map (fun d =>
          (gLookup ag (some d)).length * (gLookup vg (some d)).length)).sum ∧
    ∀ v a, (v, a) ∈ matchPairs ag vg
      ↔ ∃ d ∈ concreteKeys ag,
          a ∈ gLookup ag (some d) ∧ v ∈ gLookup vg (some d) := by
  have hpairs : matchPairs ag vg
      = (concreteKeys ag).flatMap (fun d =>
          crossPairs (gLookup ag (some d)) (gLookup vg (some d))) := by
    unfold matchPairs
    rw [if_neg hT1, if_neg hT2]
  refine ⟨hpairs, ?_, ?_⟩
  · rw [hpairs, List.length_flatMap]
    congr 1
    apply List.map_congr_left
    intro d hd
    simp only [Function.comp_apply]
    exact crossPairs_length _ _
  · intro v a
    rw [hpairs, List.mem_flatMap]
    constructor
    · rintro ⟨d, hd, hmem⟩
      exact ⟨d, hd, (crossPairs_mem _ _ v a).mp hmem⟩
    · rintro ⟨d, hd, h⟩
      exact ⟨d, hd, (crossPairs_mem _ _ v a).mpr h⟩

/-- Witness for C4 at the spec's test case: audio groups `30s` and `45s`,
video groups `30s` and `60s` give exactly the pair `(v1, a)`; the `45s`
audio and `60s` video produce nothing. -/
theorem c4_strict_marker_matching_witness :
    ¬ (concreteKeys [(some "30s", ["a.wav"]), (some "45s", ["b.wav"])]).length = 0 ∧
    (matchPairs [(some "30s", ["a.wav"]), (some "45s", ["b.wav"])]
        [(some "30s", ["v1.mp4"]), (some "60s", ["v2.mp4"])]).length
      = ((concreteKeys [(some "30s", ["a.wav"]), (some "45s", ["b.wav"])]).map
          (fun d =>
            (gLookup ([(some "30s", ["a.wav"]), (some "45s", ["b.wav"])] : Grouping)
              (some d)).length
            * (gLookup ([(some "30s", ["v1.mp4"]), (some "60s", ["v2.mp4"])] : Grouping)
              (some d)).length)).sum ∧
    matchPairs [(some "30s", ["a.wav"]), (some "45s", ["b.wav"])]
        [(some "30s", ["v1.mp4"]), (some "60s", ["v2.mp4"])]
      = [("v1.mp4", "a.wav")] :=
  ⟨by decide,
   (c4_strict_marker_matching [(some "30s", ["a.wav"]), (some "45s", ["b.wav"])]
     [(some "30s", ["v1.mp4"]), (some "60s", ["v2.mp4"])]
     (by decide) (by decide)).2.1,
   by decide⟩

/-- Fault injection for the file operations of `merge_audio_video`: a `true`
flag makes that operation raise an I/O error when it is reached, landing in
the function's exception handler. -/
structure IOFaults where
  tempCreate : Bool
  mkdirBackup : Bool
  unlinkVideo : Bool
  moveToBackup : Bool
  moveTemp : Bool

/-- One invocation's environment: the external encoder as an oracle (`none`
models a non-zero exit status), the fresh name chosen by
`tempfile.NamedTemporaryFile`, the audio path, and the injected I/O faults. -/
structure MergeEnv where
  enc : Content → Content → Option Content
  tempName : String
  audioPath : FsPath
  faults : IOFaults

/-- The path of a video inside a language folder. -/
def videoPathOf (root : List String) (lang fname : String) : FsPath :=
  root ++ [lang, fname]

/-- Backup path `<grandparent>/backup/<language folder>/<filename>` computed
by `create_backup_folder` (QuickBatch.py lines 274-293) plus the file name. -/
def backupPath (root : List String) (lang fname : String) : FsPath :=
  root ++ ["backup", lang, fname]

/-- The `except` handler of `merge_audio_video`: delete the temporary file
if it was created and still exists, and report failure. -/
def mergeFail (tempCreated : Bool) (tempPath : FsPath) (fs : FS) : Bool × FS :=
  (false, if tempCreated && fsExists fs tempPath then fsErase fs tempPath else fs)

/-- The commit phase of `merge_audio_video`, entered after a successful
encode with `fs2` holding the encoded temp file: create the backup folder,
then — if a backup already exists, do not touch it, delete the video and
move the temp file into its place; otherwise move the original video to the
backup path first, then seat the temp file. -/
def mergeCommit (env : MergeEnv) (fs2 : FS) (root : List String)
    (lang fname : String) : Bool × FS :=
  let videoPath := videoPathOf root lang fname
  let tempPath := root ++ [lang, env.tempName]
  if env.faults.mkdirBackup then mergeFail true tempPath fs2
  else
    let bp := backupPath root lang fname
    if fsExists fs2 bp then
      if env.faults.unlinkVideo then mergeFail true tempPath fs2
      else
        let fs3 := fsErase fs2 videoPath
        if env.faults.moveTemp then mergeFail true tempPath fs3
        else (true, fsMove fs3 tempPath videoPath)
    else
      if env.faults.moveToBackup then mergeFail true tempPath fs2
      else
        let fs3 := fsMove fs2 videoPath bp
        if env.faults.moveTemp then mergeFail true tempPath fs3
        else (true, fsMove fs3 tempPath videoPath)

/-- Embedding of `merge_audio_video` (QuickBatch.py lines 296-364) for a
video at `<root>/<lang>/<fname>`: create a temporary file next to the video,
have the encoder write into it (it fails when either input is missing or it
exits non-zero), then run the commit phase.  Every failure goes through
`mergeFail`. -/
def merge_audio_video (env : MergeEnv) (fs : FS) (root : List String)
    (lang fname : String) : Bool × FS :=
  let videoPath := videoPathOf root lang fname
  let tempPath := root ++ [lang, env.tempName]
  if env.faults.tempCreate then (false, fs)
  else
    let fs1 := fsInsert fs tempPath []
    match (match fsLookup fs1 videoPath, fsLookup fs1 env.audioPath with
           | some v, some a => env.enc v a
           | _, _ => none) with
    | none => mergeFail true tempPath fs1
    | some merged => mergeCommit env (fsInsert fs1 tempPath merged) root lang fname

/-- The merge loop over one video path: fold the runs, counting successes
exactly as `processed_count` does. -/
def runAll (runs : List MergeEnv) (fs : FS) (root : List String)
    (lang fname : String) : Nat × FS :=
  match runs with
  | [] => (0, fs)
  | env :: rest =>
    let r := merge_audio_video env fs root lang fname
    let rr := runAll rest r.2 root lang fname
    ((if r.1 then 1 else 0) + rr.1, rr.2)

theorem fsLookup_insert_ne (fs : FS) (p : FsPath) (c : Content) (q : FsPath)
    (h : p ≠ q) : fsLookup (fsInsert fs p c) q = fsLookup fs q := by
  rw [fsLookup_insert]
  simp [h]

theorem fsLookup_insert_self (fs : FS) (p : FsPath) (c : Content) :
    fsLookup (fsInsert fs p c) p = some c := by
  rw [fsLookup_insert]
  simp

theorem fsLookup_erase_ne (fs : FS) (p q : FsPath) (h : p ≠ q) :
    fsLookup (fsErase fs p) q = fsLookup fs q := by
  rw [fsLookup_erase]
  simp [h]

theorem fsLookup_erase_self (fs : FS) (p : FsPath) :
    fsLookup (fsErase fs p) p = none := by
  rw [fsLookup_erase]
  simp

theorem fsMove_lookup_other (fs : FS) (src dst q : FsPath)
    (hs : src ≠ q) (hd : dst ≠ q) :
    fsLookup (fsMove fs src dst) q = fsLookup fs q := by
  unfold fsMove
  cases h : fsLookup fs src with
  | none => rfl
  | some c => rw [fsLookup_insert_ne _ _ _ _ hd, fsLookup_erase_ne _ _ _ hs]

theorem fsMove_lookup_dst (fs : FS) (src dst : FsPath) (c : Content)
    (hsrc : fsLookup fs src = some c) (hne : src ≠ dst) :
    fsLookup (fsMove fs src dst) dst = some c := by
  unfold fsMove
  rw [hsrc, fsLookup_insert_self]

theorem mergeFail_fst (b : Bool) (tp : FsPath) (fs : FS) :
    (mergeFail b tp fs).1 = false := rfl

theorem mergeFail_lookup_ne (b : Bool) (tp : FsPath) (fs : FS) (q : FsPath)
    (h : tp ≠ q) : fsLookup (mergeFail b tp fs).2 q = fsLookup fs q := by
  unfold mergeFail
  by_cases hc : (b && fsExists fs tp) = true
  · simp only [hc, if_true]
    exact fsLookup_erase_ne fs tp q h
  · simp only [Bool.not_eq_true] at hc
    simp only [hc, Bool.false_eq_true, if_false]

theorem mergeFail_temp_gone (tp : FsPath) (fs : FS) :
    fsExists (mergeFail true tp fs).2 tp = false := by
  unfold mergeFail
  cases he : fsExists fs tp
  · simp only [Bool.true_and, he, Bool.false_eq_true, if_false]
  · simp only [Bool.true_and, he, if_true]
    rw [fsExists_eq_false]
    exact fsLookup_erase_self fs tp

theorem inner_path_inj {root : List String} {lang a b : String}
    (h : (root ++ [lang, a] : FsPath) = root ++ [lang, b]) : a = b := by
  have := List.append_cancel_left h
  simpa using this

theorem backupPath_ne_inner (root : List String) (lang fname a b : String) :
    backupPath root lang fname ≠ root ++ [a, b] := by
  intro h
  have := congrArg List.length h
  simp [backupPath] at this

theorem mergeCommit_cases (env : MergeEnv) (fs2 : FS) (root : List String)
    (lang fname : String) :
    (mergeCommit env fs2 root lang fname
        = mergeFail true (root ++ [lang, env.tempName]) fs2) ∨
    (fsExists fs2 (backupPath root lang fname) = true ∧
      env.faults.moveTemp = true ∧
      mergeCommit env fs2 root lang fname
        = mergeFail true (root ++ [lang, env.tempName])
            (fsErase fs2 (videoPathOf root lang fname))) ∨
    (fsExists fs2 (backupPath root lang fname) = true ∧
      mergeCommit env fs2 root lang fname
        = (true, fsMove (fsErase fs2 (videoPathOf root lang fname))
            (root ++ [lang, env.tempName]) (videoPathOf root lang fname))) ∨
    (fsExists fs2 (backupPath root lang fname) = false ∧
      env.faults.moveTemp = true ∧
      mergeCommit env fs2 root lang fname
        = mergeFail true (root ++ [lang, env.tempName])
            (fsMove fs2 (videoPathOf root lang fname)
              (backupPath root lang fname))) ∨
    (fsExists fs2 (backupPath root lang fname) = false ∧
      mergeCommit env fs2 root lang fname
        = (true, fsMove (fsMove fs2 (videoPathOf root lang fname)
            (backupPath root lang fname))
            (root ++ [lang, env.tempName]) (videoPathOf root lang fname))) := by
  unfold mergeCommit
  cases hmk : env.faults.mkdirBackup
  · cases hex : fsExists fs2 (backupPath root lang fname)
    · cases hmv : env.faults.moveToBackup
      · cases hmt : env.faults.moveTemp
        · right; right; right; right
          exact ⟨rfl, by simp [hmk, hex, hmv, hmt]⟩
        · right; right; right; left
          exact ⟨rfl, rfl, by simp [hmk, hex, hmv, hmt]⟩
      · left
        simp [hmk, hex, hmv]
    · cases hu : env.faults.unlinkVideo
      · cases hmt : env.faults.moveTemp
        · right; right; left
          exact ⟨rfl, by simp [hmk, hex, hu, hmt]⟩
        · right; left
          exact ⟨rfl, rfl, by simp [hmk, hex, hu, hmt]⟩
      · left
        simp [hmk, hex, hu]
  · left
    simp [hmk]

theorem merge_cases (env : MergeEnv) (fs : FS) (root : List String)
    (lang fname : String) :
    (merge_audio_video env fs root lang fname = (false, fs)) ∨
    (merge_audio_video env fs root lang fname
        = mergeFail true (root ++ [lang, env.tempName])
            (fsInsert fs (root ++ [lang, env.tempName]) [])) ∨
    (∃ merged, merge_audio_video env fs root lang fname
        = mergeCommit env
            (fsInsert (fsInsert fs (root ++ [lang, env.tempName]) [])
              (root ++ [lang, env.tempName]) merged) root lang fname) := by
  unfold merge_audio_video
  cases htc : env.faults.tempCreate
  · cases henc : (match fsLookup (fsInsert fs (root ++ [lang, env.tempName]) [])
          (videoPathOf root lang fname),
        fsLookup (fsInsert fs (root ++ [lang, env.tempName]) []) env.audioPath with
      | some v, some a => env.enc v a
      | _, _ => none) with
    | none =>
      right; left
      simp only [htc, Bool.false_eq_true, if_false]
      rw [henc]
    | some merged =>
      right; right
      refine ⟨merged, ?_⟩
      simp only [htc, Bool.false_eq_true, if_false]
      rw [henc]
  · left
    simp [htc]

theorem tempPath_ne_backupPath (root : List String) (lang fname t : String) :
    (root ++ [lang, t] : FsPath) ≠ backupPath root lang fname :=
  fun h => backupPath_ne_inner root lang fname lang t h.symm

theorem videoPath_ne_backupPath (root : List String) (lang fname : String) :
    videoPathOf root lang fname ≠ backupPath root lang fname :=
  fun h => backupPath_ne_inner root lang fname lang fname h.symm

theorem tempPath_ne_videoPath {root : List String} {lang fname t : String}
    (h : t ≠ fname) : (root ++ [lang, t] : FsPath) ≠ videoPathOf root lang fname :=
  fun he => h (inner_path_inj he)

theorem mergeCommit_preserves_backup (env : MergeEnv) (fs2 : FS)
    (root : List String) (lang fname : String) (b : Content)
    (hb : fsLookup fs2 (backupPath root lang fname) = some b) :
    fsLookup (mergeCommit env fs2 root lang fname).2
      (backupPath root lang fname) = some b := by
  have htb := tempPath_ne_backupPath root lang fname env.tempName
  have hvb := videoPath_ne_backupPath root lang fname
  have hexb : fsExists fs2 (backupPath root lang fname) = true :=
    (fsExists_iff _ _).mpr ⟨b, hb⟩
  rcases mergeCommit_cases env fs2 root lang fname with
    heq | ⟨_, _, heq⟩ | ⟨_, heq⟩ | ⟨hex, _, _⟩ | ⟨hex, _⟩
  · rw [heq, mergeFail_lookup_ne _ _ _ _ htb]
    exact hb
  · rw [heq, mergeFail_lookup_ne _ _ _ _ htb, fsLookup_erase_ne _ _ _ hvb]
    exact hb
  · rw [heq]
    show fsLookup (fsMove _ _ _) _ = some b
    rw [fsMove_lookup_other _ _ _ _ htb hvb, fsLookup_erase_ne _ _ _ hvb]
    exact hb
  · rw [hexb] at hex
    exact Bool.noConfusion hex
  · rw [hexb] at hex
    exact Bool.noConfusion hex

theorem merge_preserves_backup (env : MergeEnv) (fs : FS) (root : List String)
    (lang fname : String) (b : Content)
    (hb : fsLookup fs (backupPath root lang fname) = some b) :
    fsLookup (merge_audio_video env fs root lang fname).2
      (backupPath root lang fname) = some b := by
  have htb := tempPath_ne_backupPath root lang fname env.tempName
  rcases merge_cases env fs root lang fname with heq | heq | ⟨merged, heq⟩
  · rw [heq]
    exact hb
  · rw [heq, mergeFail_lookup_ne _ _ _ _ htb, fsLookup_insert_ne _ _ _ _ htb]
    exact hb
  · rw [heq]
    apply mergeCommit_preserves_backup
    rw [fsLookup_insert_ne _ _ _ _ htb, fsLookup_insert_ne _ _ _ _ htb]
    exact hb

theorem mergeCommit_step_A (env : MergeEnv) (fs2 : FS) (root : List String)
    (lang fname : String) (v0 : Content)
    (htn : env.tempName ≠ fname)
    (hv : fsLookup fs2 (videoPathOf root lang fname) = some v0)
    (hb : fsLookup fs2 (backupPath root lang fname) = none) :
    ((fsLookup (mergeCommit env fs2 root lang fname).2
        (videoPathOf root lang fname) = some v0 ∧
      fsLookup (mergeCommit env fs2 root lang fname).2
        (backupPath root lang fname) = none) ∨
     fsLookup (mergeCommit env fs2 root lang fname).2
        (backupPath root lang fname) = some v0) ∧
    ((mergeCommit env fs2 root lang fname).1 = true →
      fsLookup (mergeCommit env fs2 root lang fname).2
        (backupPath root lang fname) = some v0) := by
  have htb := tempPath_ne_backupPath root lang fname env.tempName
  have hvb := videoPath_ne_backupPath root lang fname
  have htv := @tempPath_ne_videoPath root lang fname env.tempName htn
  have hexb : fsExists fs2 (backupPath root lang fname) = false := by
    rw [fsExists_eq_false]
    exact hb
  rcases mergeCommit_cases env fs2 root lang fname with
    heq | ⟨hex, _, _⟩ | ⟨hex, _⟩ | ⟨_, _, heq⟩ | ⟨_, heq⟩
  · constructor
    · left
      rw [heq, mergeFail_lookup_ne _ _ _ _ htv, mergeFail_lookup_ne _ _ _ _ htb]
      exact ⟨hv, hb⟩
    · intro hok
      rw [heq] at hok
      exact absurd hok (by rw [mergeFail_fst]; exact Bool.noConfusion)
  · rw [hexb] at hex
    exact Bool.noConfusion hex
  · rw [hexb] at hex
    exact Bool.noConfusion hex
  · have hbp : fsLookup (mergeCommit env fs2 root lang fname).2
        (backupPath root lang fname) = some v0 := by
      rw [heq, mergeFail_lookup_ne _ _ _ _ htb,
        fsMove_lookup_dst fs2 _ _ v0 hv hvb]
    constructor
    · right
      exact hbp
    · intro _
      exact hbp
  · have hbp : fsLookup (mergeCommit env fs2 root lang fname).2
        (backupPath root lang fname) = some v0 := by
      rw [heq]
      show fsLookup (fsMove _ _ _) _ = some v0
      rw [fsMove_lookup_other _ _ _ _ htb hvb,
        fsMove_lookup_dst fs2 _ _ v0 hv hvb]
    constructor
    · right
      exact hbp
    · intro _
      exact hbp

theorem merge_step_A (env : MergeEnv) (fs : FS) (root : List String)
    (lang fname : String) (v0 : Content)
    (htn : env.tempName ≠ fname)
    (hv : fsLookup fs (videoPathOf root lang fname) = some v0)
    (hb : fsLookup fs (backupPath root lang fname) = none) :
    ((fsLookup (merge_audio_video env fs root lang fname).2
        (videoPathOf root lang fname) = some v0 ∧
      fsLookup (merge_audio_video env fs root lang fname).2
        (backupPath root lang fname) = none) ∨
     fsLookup (merge_audio_video env fs root lang fname).2
        (backupPath root lang fname) = some v0) ∧
    ((merge_audio_video env fs root lang fname).1 = true →
      fsLookup (merge_audio_video env fs root lang fname).2
        (backupPath root lang fname) = some v0) := by
  have htb := tempPath_ne_backupPath root lang fname env.tempName
  have htv := @tempPath_ne_videoPath root lang fname env.tempName htn
  rcases merge_cases env fs root lang fname with heq | heq | ⟨merged, heq⟩
  · constructor
    · left
      rw [heq]
      exact ⟨hv, hb⟩
    · intro hok
      rw [heq] at hok
      exact Bool.noConfusion hok
  · constructor
    · left
      rw [heq, mergeFail_lookup_ne _ _ _ _ htv, mergeFail_lookup_ne _ _ _ _ htb,
        fsLookup_insert_ne _ _ _ _ htv, fsLookup_insert_ne _ _ _ _ htb]
      exact ⟨hv, hb⟩
    · intro hok
      rw [heq] at hok
      exact absurd hok (by rw [mergeFail_fst]; exact Bool.noConfusion)
  · rw [heq]
    apply mergeCommit_step_A env _ root lang fname v0 htn
    · rw [fsLookup_insert_ne _ _ _ _ htv, fsLookup_insert_ne _ _ _ _ htv]
      exact hv
    · rw [fsLookup_insert_ne _ _ _ _ htb, fsLookup_insert_ne _ _ _ _ htb]
      exact hb

theorem mergeCommit_success (env : MergeEnv) (fs2 : FS) (root : List String)
    (lang fname : String) (m0 : Content)
    (htn : env.tempName ≠ fname)
    (htemp : fsLookup fs2 (root ++ [lang, env.tempName]) = some m0)
    (hok : (mergeCommit env fs2 root lang fname).1 = true) :
    fsLookup (mergeCommit env fs2 root lang fname).2
      (videoPathOf root lang fname) = some m0 := by
  have htb := tempPath_ne_backupPath root lang fname env.tempName
  have hvb := videoPath_ne_backupPath root lang fname
  have htv := @tempPath_ne_videoPath root lang fname env.tempName htn
  rcases mergeCommit_cases env fs2 root lang fname with
    heq | ⟨_, _, heq⟩ | ⟨_, heq⟩ | ⟨_, _, heq⟩ | ⟨_, heq⟩
  · rw [heq] at hok
    exact absurd hok (by rw [mergeFail_fst]; exact Bool.noConfusion)
  · rw [heq] at hok
    exact absurd hok (by rw [mergeFail_fst]; exact Bool.noConfusion)
  · rw [heq]
    show fsLookup (fsMove _ _ _) _ = some m0
    apply fsMove_lookup_dst
    · rw [fsLookup_erase_ne _ _ _ htv.symm]
      exact htemp
    · exact htv
  · rw [heq] at hok
    exact absurd hok (by rw [mergeFail_fst]; exact Bool.noConfusion)
  · rw [heq]
    show fsLookup (fsMove _ _ _) _ = some m0
    apply fsMove_lookup_dst
    · rw [fsMove_lookup_other _ _ _ _ htv.symm htb.symm]
      exact htemp
    · exact htv

theorem merge_success_video_replaced (env : MergeEnv) (fs : FS)
    (root : List String) (lang fname : String)
    (htn : env.tempName ≠ fname)
    (hok : (merge_audio_video env fs root lang fname).1 = true) :
    ∃ m, fsLookup (merge_audio_video env fs root lang fname).2
      (videoPathOf root lang fname) = some m := by
  rcases merge_cases env fs root lang fname with heq | heq | ⟨merged, heq⟩
  · rw [heq] at hok
    exact Bool.noConfusion hok
  · rw [heq] at hok
    exact absurd hok (by rw [mergeFail_fst]; exact Bool.noConfusion)
  · rw [heq] at hok ⊢
    refine ⟨merged, ?_⟩
    apply mergeCommit_success env _ root lang fname merged htn _ hok
    exact fsLookup_insert_self _ _ _

theorem runAll_preserves_backup (runs : List MergeEnv) (fs : FS)
    (root : List String) (lang fname : String) (b : Content)
    (hb : fsLookup fs (backupPath root lang fname) = some b) :
    fsLookup (runAll runs fs root lang fname).2
      (backupPath root lang fname) = some b := by
  induction runs generalizing fs with
  | nil => exact hb
  | cons env rest ih =>
    exact ih _ (merge_preserves_backup env fs root lang fname b hb)

theorem runAll_first_success_backup (runs : List MergeEnv) (fs : FS)
    (root : List String) (lang fname : String) (v0 : Content)
    (htn : ∀ env ∈ runs, env.tempName ≠ fname)
    (hv : fsLookup fs (videoPathOf root lang fname) = some v0)
    (hb : fsLookup fs (backupPath root lang fname) = none)
    (hcount : 1 ≤ (runAll runs fs root lang fname).1) :
    fsLookup (runAll runs fs root lang fname).2
      (backupPath root lang fname) = some v0 := by
  induction runs generalizing fs with
  | nil => simp [runAll] at hcount
  | cons env rest ih =>
    have htn1 : env.tempName ≠ fname := htn env (by simp)
    have htnr : ∀ e ∈ rest, e.tempName ≠ fname :=
      fun e he => htn e (by simp [he])
    obtain ⟨hstate, himpl⟩ := merge_step_A env fs root lang fname v0 htn1 hv hb
    have hcons : runAll (env :: rest) fs root lang fname
        = ((if (merge_audio_video env fs root lang fname).1 then 1 else 0)
            + (runAll rest (merge_audio_video env fs root lang fname).2
                root lang fname).1,
           (runAll rest (merge_audio_video env fs root lang fname).2
              root lang fname).2) := rfl
    rw [hcons] at hcount ⊢
    cases hok : (merge_audio_video env fs root lang fname).1
    · rw [hok] at hcount
      simp only [Bool.false_eq_true, if_false, Nat.zero_add] at hcount
      rcases hstate with ⟨hv2, hb2⟩ | hb2
      · exact ih _ htnr hv2 hb2 hcount
      · exact runAll_preserves_backup rest _ root lang fname v0 hb2
    · exact runAll_preserves_backup rest _ root lang fname v0 (himpl hok)

/-- C1: a file already at the backup path is never overwritten by any
invocation of `merge_audio_video`; when a backup exists the video is
replaced in place; only when no backup exists is the current video moved to
the backup path; consequently any number of runs on the same video path with
at least one success leaves the backup path holding exactly the video's
content from before the first successful replacement. -/
theorem c1_backup_created_once_never_overwritten (root : List String)
    (lang fname : String) :
    (∀ env fs b, fsLookup fs (backupPath root lang fname) = some b →
      fsLookup (merge_audio_video env fs root lang fname).2
        (backupPath root lang fname) = some b) ∧
    (∀ env fs, env.tempName ≠ fname →
      (merge_audio_video env fs root lang fname).1 = true →
      ∃ m, fsLookup (merge_audio_video env fs root lang fname).2
        (videoPathOf root lang fname) = some m) ∧
    (∀ env fs v0, env.tempName ≠ fname →
      fsLookup fs (backupPath root lang fname) = none →
      fsLookup fs (videoPathOf root lang fname) = some v0 →
      (merge_audio_video env fs root lang fname).1 = true →
      fsLookup (merge_audio_video env fs root lang fname).2
        (backupPath root lang fname) = some v0) ∧
    (∀ runs : List MergeEnv, ∀ fs v0,
      (∀ env ∈ runs, env.tempName ≠ fname) →
      fsLookup fs (backupPath root lang fname) = none →
      fsLookup fs (videoPathOf root lang fname) = some v0 →
      1 ≤ (runAll runs fs root lang fname).1 →
      fsLookup (runAll runs fs root lang fname).2
        (backupPath root lang fname) = some v0) :=
  ⟨fun env fs b hb => merge_preserves_backup env fs root lang fname b hb,
   fun env fs htn hok => merge_success_video_replaced env fs root lang fname htn hok,
   fun env fs v0 htn hb hv hok =>
     (merge_step_A env fs root lang fname v0 htn hv hb).2 hok,
   fun runs fs v0 htn hb hv hc =>
     runAll_first_success_backup runs fs root lang fname v0 htn hv hb hc⟩

/-- A no-fault environment whose encoder concatenates its two inputs, used
to exercise the merge model on concrete filesystems. -/
def demoEnv (t : String) : MergeEnv :=
  { enc := fun v a => some (v ++ a), tempName := t, audioPath := ["a.wav"],
    faults := ⟨false, false, false, false, false⟩ }

/-- Two consecutive no-fault runs on the same video. -/
def demoRuns : List MergeEnv := [demoEnv "t1.mp4", demoEnv "t2.mp4"]

/-- A filesystem with one video in the EN folder and one audio file. -/
def demoFs : FS := [(["EN", "v.mp4"], [1, 2]), (["a.wav"], [7])]

/-- Witness for C1: two successful runs on the same video leave the backup
holding the pre-first-run content `[1, 2]`, while the video path holds the
second run's encoder output. -/
theorem c1_backup_created_once_never_overwritten_witness :
    (∀ env ∈ demoRuns, env.tempName ≠ "v.mp4") ∧
    fsLookup demoFs (backupPath [] "EN" "v.mp4") = none ∧
    fsLookup demoFs (videoPathOf [] "EN" "v.mp4") = some [1, 2] ∧
    1 ≤ (runAll demoRuns demoFs [] "EN" "v.mp4").1 ∧
    fsLookup (runAll demoRuns demoFs [] "EN" "v.mp4").2
      (backupPath [] "EN" "v.mp4") = some [1, 2] ∧
    (runAll demoRuns demoFs [] "EN" "v.mp4").1 = 2 ∧
    fsLookup (runAll demoRuns demoFs [] "EN" "v.mp4").2
      (videoPathOf [] "EN" "v.mp4") = some [1, 2, 7, 7] :=
  ⟨by decide, by decide, by decide, by decide,
   (c1_backup_created_once_never_overwritten [] "EN" "v.mp4").2.2.2
     demoRuns demoFs [1, 2] (by decide) (by decide) (by decide) (by decide),
   by decide, by decide⟩

theorem mergeCommit_failure (env : MergeEnv) (fs2 : FS) (root : List String)
    (lang fname : String)
    (htn : env.tempName ≠ fname)
    (hfail : (mergeCommit env fs2 root lang fname).1 = false) :
    fsExists (mergeCommit env fs2 root lang fname).2
      (root ++ [lang, env.tempName]) = false ∧
    (fsLookup (mergeCommit env fs2 root lang fname).2
        (videoPathOf root lang fname)
      = fsLookup fs2 (videoPathOf root lang fname) ∨
     (env.faults.moveTemp = true ∧
      fsLookup (mergeCommit env fs2 root lang fname).2
        (videoPathOf root lang fname) = none)) := by
  have htv := @tempPath_ne_videoPath root lang fname env.tempName htn
  have hvb := videoPath_ne_backupPath root lang fname
  rcases mergeCommit_cases env fs2 root lang fname with
    heq | ⟨_, hmt, heq⟩ | ⟨_, heq⟩ | ⟨_, hmt, heq⟩ | ⟨_, heq⟩
  · rw [heq]
    exact ⟨mergeFail_temp_gone _ _,
      Or.inl (mergeFail_lookup_ne _ _ _ _ htv)⟩
  · rw [heq]
    refine ⟨mergeFail_temp_gone _ _, Or.inr ⟨hmt, ?_⟩⟩
    rw [mergeFail_lookup_ne _ _ _ _ htv]
    exact fsLookup_erase_self _ _
  · rw [heq] at hfail
    exact Bool.noConfusion hfail
  · rw [heq]
    refine ⟨mergeFail_temp_gone _ _, ?_⟩
    cases hlv : fsLookup fs2 (videoPathOf root lang fname) with
    | none =>
      left
      rw [mergeFail_lookup_ne _ _ _ _ htv]
      unfold fsMove
      rw [hlv]
      exact hlv
    | some c =>
      right
      refine ⟨hmt, ?_⟩
      rw [mergeFail_lookup_ne _ _ _ _ htv]
      unfold fsMove
      rw [hlv, fsLookup_insert_ne _ _ _ _ hvb.symm, fsLookup_erase_self]
  · rw [heq] at hfail
    exact Bool.noConfusion hfail

/-- C2 (amended: on failure the temporary file is always removed, any
existing backup is untouched and failure is reported for this pair only, but
the video path is guaranteed bit-identical only when the failure happens
before the final move of the temp file into the video path; when that final
move itself fails the video path is left with no file — never with corrupted
content): failure cleanup of `merge_audio_video`. -/
theorem c2_failure_cleanup (env : MergeEnv) (fs : FS) (root : List String)
    (lang fname : String)
    (htn : env.tempName ≠ fname)
    (hfresh : fsExists fs (root ++ [lang, env.tempName]) = false)
    (hfail : (merge_audio_video env fs root lang fname).1 = false) :
    fsExists (merge_audio_video env fs root lang fname).2
      (root ++ [lang, env.tempName]) = false ∧
    (∀ b, fsLookup fs (backupPath root lang fname) = some b →
      fsLookup (merge_audio_video env fs root lang fname).2
        (backupPath root lang fname) = some b) ∧
    (fsLookup (merge_audio_video env fs root lang fname).2
        (videoPathOf root lang fname)
      = fsLookup fs (videoPathOf root lang fname) ∨
     (env.faults.moveTemp = true ∧
      fsLookup (merge_audio_video env fs root lang fname).2
        (videoPathOf root lang fname) = none)) := by
  have htv := @tempPath_ne_videoPath root lang fname env.tempName htn
  refine ⟨?_, fun b hb => merge_preserves_backup env fs root lang fname b hb, ?_⟩
  · rcases merge_cases env fs root lang fname with heq | heq | ⟨merged, heq⟩
    · rw [heq]
      exact hfresh
    · rw [heq]
      exact mergeFail_temp_gone _ _
    · rw [heq]
      rw [heq] at hfail
      exact (mergeCommit_failure env _ root lang fname htn hfail).1
  · rcases merge_cases env fs root lang fname with heq | heq | ⟨merged, heq⟩
    · rw [heq]
      exact Or.inl rfl
    · rw [heq]
      left
      rw [mergeFail_lookup_ne _ _ _ _ htv, fsLookup_insert_ne _ _ _ _ htv]
    · rw [heq]
      rw [heq] at hfail
      have h2 := (mergeCommit_failure env _ root lang fname htn hfail).2
      rw [fsLookup_insert_ne _ _ _ _ htv, fsLookup_insert_ne _ _ _ _ htv] at h2
      exact h2

/-- Faults making only the final move of the temp file into the video path
fail. -/
def cexFaults : IOFaults := ⟨false, false, false, false, true⟩

/-- An environment whose only fault is the final move. -/
def cexEnv : MergeEnv :=
  { enc := fun v a => some (v ++ a), tempName := "tmp0.mp4",
    audioPath := ["a.wav"], faults := cexFaults }

/-- A filesystem holding the video, an existing backup of it, and the
audio. -/
def cexFs : FS :=
  [(["EN", "v.mp4"], [1]), (["backup", "EN", "v.mp4"], [9]), (["a.wav"], [2])]

/-- Counterexample to C2 as stated: an I/O error in the final move (after
the encoder succeeded and the video file was already deleted, its backup
existing from an earlier run) leaves the call failed, the temp file deleted —
but the video path holds no file, so its content is not bit-identical to the
content before the call. -/
theorem c2_counterexample_commit_io_failure :
    (merge_audio_video cexEnv cexFs [] "EN" "v.mp4").1 = false ∧
    fsLookup cexFs (videoPathOf [] "EN" "v.mp4") = some [1] ∧
    fsLookup (merge_audio_video cexEnv cexFs [] "EN" "v.mp4").2
      (videoPathOf [] "EN" "v.mp4") = none ∧
    fsExists (merge_audio_video cexEnv cexFs [] "EN" "v.mp4").2
      ([] ++ ["EN", "tmp0.mp4"]) = false ∧
    fsLookup (merge_audio_video cexEnv cexFs [] "EN" "v.mp4").2
      (backupPath [] "EN" "v.mp4") = some [9] :=
  ⟨by decide, by decide, by decide, by decide, by decide⟩

/-- An environment whose encoder always exits non-zero. -/
def cexEnvEncFail : MergeEnv :=
  { enc := fun _ _ => none, tempName := "t0.mp4",
    audioPath := ["a.wav"], faults := ⟨false, false, false, false, false⟩ }

/-- Witness for C2 at a concrete encoder failure: the temp file is gone, the
backup is untouched and the video content is unchanged. -/
theorem c2_failure_cleanup_witness :
    cexEnvEncFail.tempName ≠ "v.mp4" ∧
    fsExists cexFs ([] ++ ["EN", "t0.mp4"]) = false ∧
    (merge_audio_video cexEnvEncFail cexFs [] "EN" "v.mp4").1 = false ∧
    (fsExists (merge_audio_video cexEnvEncFail cexFs [] "EN" "v.mp4").2
      ([] ++ ["EN", "t0.mp4"]) = false ∧
    (∀ b, fsLookup cexFs (backupPath [] "EN" "v.mp4") = some b →
      fsLookup (merge_audio_video cexEnvEncFail cexFs [] "EN" "v.mp4").2
        (backupPath [] "EN" "v.mp4") = some b) ∧
    (fsLookup (merge_audio_video cexEnvEncFail cexFs [] "EN" "v.mp4").2
        (videoPathOf [] "EN" "v.mp4")
      = fsLookup cexFs (videoPathOf [] "EN" "v.mp4") ∨
     (cexEnvEncFail.faults.moveTemp = true ∧
      fsLookup (merge_audio_video cexEnvEncFail cexFs [] "EN" "v.mp4").2
        (videoPathOf [] "EN" "v.mp4") = none))) :=
  ⟨by decide, by decide, by decide,
   c2_failure_cleanup cexEnvEncFail cexFs [] "EN" "v.mp4"
     (by decide) (by decide) (by decide)⟩

/-- Does the character list start with `WIP`? -/
def startsWIP : List Char → Bool
  | 'W' :: 'I' :: 'P' :: _ => true
  | _ => false

/-- Contiguous-substring test for `WIP`. -/
def hasWIP : List Char → Bool
  | [] => false
  | c :: rest => startsWIP (c :: rest) || hasWIP rest

/-- Python `str.upper()` over ASCII, acting on the character list. -/
def strUpper (s : String) : String := ⟨s.data.map Char.toUpper⟩

/-- The filter condition `"WIP" in video_file.name.upper()` of
`video_rename_mode` (QuickBatch.py lines 477-481), over ASCII. -/
def containsWip (name : String) : Bool :=
  hasWIP (name.data.map Char.toUpper)

example : containsWip "clip_wip_v2.mp4" = true := by decide
example : containsWip "clip_WiP.mp4" = true := by decide
example : containsWip "clip_v2.mp4" = false := by decide

/-- The collaborators of the rename mode: the custom name typed by the user,
the metadata reader (`none` models a metadata failure, which the mode counts
as an error), and an oracle saying whether the per-file rename/move block
raises; a raise is modelled at the block's start, before any file mutation. -/
structure RenameCtx where
  customName : String
  md : String → Option (String × Nat)
  renameFails : String → Bool

/-- Processing of one (non-WIP) file by `video_rename_mode` (QuickBatch.py
lines 493-521) over the state (filesystem, processed count, error count):
extract the language, read metadata (failure counts an error), build the new
name `custom_<duration>s_<lang>_<WxH>.mp4`, rename to a collision-free path,
then move into the uppercase language folder, again collision-free. -/
def videoRenameStep (ctx : RenameCtx) (st : FS × Nat × Nat) (name : String) :
    FS × Nat × Nat :=
  let fs := st.1
  let processed := st.2.1
  let errors := st.2.2
  let lang := extract_language_qb name
  match ctx.md name with
  | none => (fs, processed, errors + 1)
  | some (res, dur) =>
    if ctx.renameFails name then (fs, processed, errors + 1)
    else
      let newName := ctx.customName ++ "_" ++ natRepr dur ++ "s"
        ++ "_" ++ lang ++ "_" ++ res ++ ".mp4"
      let p1 := handle_duplicate_names fs [newName]
      let fs1 := fsMove fs [name] p1
      let langFolder := strUpper lang
      let p2 := handle_duplicate_names fs1 [langFolder, p1.getLastD ""]
      (fsMove fs1 p1 p2, processed + 1, errors)

/-- Embedding of `video_rename_mode`'s file processing (QuickBatch.py lines
465-521): drop every `.mp4` whose name contains `wip` in any letter case,
then process the remaining files in order.  Paths are relative to the
working directory: a file in it is `[name]`, a file in a language folder is
`[LANG, name]`. -/
def video_rename_mode (ctx : RenameCtx) (fs : FS) (mp4s : List String) :
    FS × Nat × Nat :=
  let filtered := mp4s.filter (fun n => containsWip n = false)
  filtered.foldl (videoRenameStep ctx) (fs, 0, 0)

theorem videoRenameStep_preserves (ctx : RenameCtx) (st : FS × Nat × Nat)
    (n w : String) (c : Content)
    (hn : containsWip n = false) (hw : containsWip w = true)
    (hc : fsLookup st.1 [w] = some c) :
    fsLookup (videoRenameStep ctx st n).1 [w] = some c := by
  have hnw : ([n] : FsPath) ≠ [w] := by
    intro h
    have : n = w := by simpa using h
    rw [this, hw] at hn
    exact Bool.noConfusion hn
  unfold videoRenameStep
  cases hmd : ctx.md n with
  | none => exact hc
  | some pr =>
    obtain ⟨res, dur⟩ := pr
    cases hrf : ctx.renameFails n
    · simp only [Bool.false_eq_true, if_false]
      have hfree1 := handle_duplicate_names_free st.1
        [ctx.customName ++ "_" ++ natRepr dur ++ "s"
          ++ "_" ++ extract_language_qb n ++ "_" ++ res ++ ".mp4"]
      set p1 := handle_duplicate_names st.1
        [ctx.customName ++ "_" ++ natRepr dur ++ "s"
          ++ "_" ++ extract_language_qb n ++ "_" ++ res ++ ".mp4"] with hp1
      have hp1w : p1 ≠ [w] := by
        intro h
        rw [h] at hfree1
        rw [fsExists_eq_false, hc] at hfree1
        exact Option.noConfusion hfree1
      have hfs1 : fsLookup (fsMove st.1 [n] p1) [w] = some c := by
        rw [fsMove_lookup_other _ _ _ _ hnw hp1w]
        exact hc
      set fs1 := fsMove st.1 [n] p1 with hfs1d
      have hfree2 := handle_duplicate_names_free fs1
        [strUpper (extract_language_qb n), p1.getLastD ""]
      set p2 := handle_duplicate_names fs1
        [strUpper (extract_language_qb n), p1.getLastD ""] with hp2
      have hp2w : p2 ≠ [w] := by
        intro h
        rw [h] at hfree2
        rw [fsExists_eq_false, hfs1] at hfree2
        exact Option.noConfusion hfree2
      show fsLookup (fsMove fs1 p1 p2) [w] = some c
      rw [fsMove_lookup_other _ _ _ _ hp1w hp2w]
      exact hfs1
    · simp only [if_true]
      exact hc

theorem videoRenameStep_counts (ctx : RenameCtx) (st : FS × Nat × Nat)
    (n : String) :
    (videoRenameStep ctx st n).2.1 + (videoRenameStep ctx st n).2.2
      = st.2.1 + st.2.2 + 1 := by
  unfold videoRenameStep
  cases hmd : ctx.md n with
  | none =>
    show st.2.1 + (st.2.2 + 1) = st.2.1 + st.2.2 + 1
    omega
  | some pr =>
    obtain ⟨res, dur⟩ := pr
    cases hrf : ctx.renameFails n
    · simp only [Bool.false_eq_true, if_false]
      show st.2.1 + 1 + st.2.2 = st.2.1 + st.2.2 + 1
      omega
    · simp only [if_true]
      show st.2.1 + (st.2.2 + 1) = st.2.1 + st.2.2 + 1
      omega

theorem videoRenameStep_congr (ctx ctx2 : RenameCtx) (st : FS × Nat × Nat)
    (n : String)
    (hcn : ctx2.customName = ctx.customName)
    (hrf : ctx2.renameFails = ctx.renameFails)
    (hmd : ctx2.md n = ctx.md n) :
    videoRenameStep ctx2 st n = videoRenameStep ctx st n := by
  unfold videoRenameStep
  rw [hcn, hrf, hmd]

theorem renameFold_preserves (ctx : RenameCtx) (l : List String) (w : String)
    (c : Content) (hw : containsWip w = true)
    (hl : ∀ n ∈ l, containsWip n = false) :
    ∀ st : FS × Nat × Nat, fsLookup st.1 [w] = some c →
      fsLookup (l.foldl (videoRenameStep ctx) st).1 [w] = some c := by
  induction l with
  | nil => intro st hc; exact hc
  | cons n rest ih =>
    intro st hc
    have hn : containsWip n = false := hl n (by simp)
    have hrest : ∀ m ∈ rest, containsWip m = false :=
      fun m hm => hl m (by simp [hm])
    exact ih hrest _ (videoRenameStep_preserves ctx st n w c hn hw hc)

theorem renameFold_counts (ctx : RenameCtx) (l : List String) :
    ∀ st : FS × Nat × Nat,
      (l.foldl (videoRenameStep ctx) st).2.1
        + (l.foldl (videoRenameStep ctx) st).2.2
      = st.2.1 + st.2.2 + l.length := by
  induction l with
  | nil => intro st; simp
  | cons n rest ih =>
    intro st
    rw [List.foldl_cons, ih (videoRenameStep ctx st n),
      videoRenameStep_counts ctx st n, List.length_cons]
    omega

theorem renameFold_congr (ctx ctx2 : RenameCtx) (l : List String)
    (hcn : ctx2.customName = ctx.customName)
    (hrf : ctx2.renameFails = ctx.renameFails)
    (hmd : ∀ n ∈ l, ctx2.md n = ctx.md n) :
    ∀ st : FS × Nat × Nat,
      l.foldl (videoRenameStep ctx2) st = l.foldl (videoRenameStep ctx) st := by
  induction l with
  | nil => intro st; rfl
  | cons n rest ih =>
    intro st
    rw [List.foldl_cons, List.foldl_cons,
      videoRenameStep_congr ctx ctx2 st n hcn hrf (hmd n (by simp)),
      ih (fun m hm => hmd m (by simp [hm]))]

/-- C10: in video rename mode, every `.mp4` whose name contains `wip` in any
letter case is excluded before any metadata read: its path and content are
unchanged by the run, it is counted neither as processed nor as an error
(the two counters sum to exactly the number of non-WIP files), and the run's
entire outcome is independent of what the metadata reader would return for
WIP names. -/
theorem c10_wip_files_excluded (ctx : RenameCtx) (fs : FS)
    (mp4s : List String) (w : String)
    (hwip : containsWip w = true)
    (hex : ∃ c, fsLookup fs [w] = some c) :
    fsLookup (video_rename_mode ctx fs mp4s).1 [w] = fsLookup fs [w] ∧
    (video_rename_mode ctx fs mp4s).2.1 + (video_rename_mode ctx fs mp4s).2.2
      = (mp4s.filter (fun n => containsWip n = false)).length ∧
    (∀ ctx2 : RenameCtx, ctx2.customName = ctx.customName →
      ctx2.renameFails = ctx.renameFails →
      (∀ n, containsWip n = false → ctx2.md n = ctx.md n) →
      video_rename_mode ctx2 fs mp4s = video_rename_mode ctx fs mp4s) := by
  obtain ⟨c, hc⟩ := hex
  have hfiltered : ∀ n ∈ mp4s.filter (fun n => containsWip n = false),
      containsWip n = false := by
    intro n hn
    have := List.of_mem_filter hn
    simpa using this
  refine ⟨?_, ?_, ?_⟩
  · unfold video_rename_mode
    rw [hc]
    exact renameFold_preserves ctx _ w c hwip hfiltered (fs, 0, 0) hc
  · unfold video_rename_mode
    rw [renameFold_counts ctx _ (fs, 0, 0)]
    simp
  · intro ctx2 hcn hrf hmd
    unfold video_rename_mode
    exact renameFold_congr ctx ctx2 _ hcn hrf
      (fun n hn => hmd n (hfiltered n hn)) (fs, 0, 0)

/-- Witness for C10: with files `wip_ad.mp4` (skipped) and `ru_ad.mp4`
(processed into the RU folder), the WIP file's entry is untouched and the
counters sum to 1. -/
theorem c10_wip_files_excluded_witness :
    containsWip "wip_ad.mp4" = true ∧
    fsLookup [(["wip_ad.mp4"], ([5] : Content)), (["ru_ad.mp4"], [6])]
      ["wip_ad.mp4"] = some [5] ∧
    fsLookup (video_rename_mode
        ⟨"spot", fun _ => some ("1080x1920", 30), fun _ => false⟩
        [(["wip_ad.mp4"], ([5] : Content)), (["ru_ad.mp4"], [6])]
        ["wip_ad.mp4", "ru_ad.mp4"]).1 ["wip_ad.mp4"]
      = fsLookup [(["wip_ad.mp4"], ([5] : Content)), (["ru_ad.mp4"], [6])]
          ["wip_ad.mp4"] ∧
    (video_rename_mode
        ⟨"spot", fun _ => some ("1080x1920", 30), fun _ => false⟩
        [(["wip_ad.mp4"], ([5] : Content)), (["ru_ad.mp4"], [6])]
        ["wip_ad.mp4", "ru_ad.mp4"]).2.1
      + (video_rename_mode
        ⟨"spot", fun _ => some ("1080x1920", 30), fun _ => false⟩
        [(["wip_ad.mp4"], ([5] : Content)), (["ru_ad.mp4"], [6])]
        ["wip_ad.mp4", "ru_ad.mp4"]).2.2
      = ((["wip_ad.mp4", "ru_ad.mp4"] : List String).filter
          (fun n => containsWip n = false)).length ∧
    fsLookup (video_rename_mode
        ⟨"spot", fun _ => some ("1080x1920", 30), fun _ => false⟩
        [(["wip_ad.mp4"], ([5] : Content)), (["ru_ad.mp4"], [6])]
        ["wip_ad.mp4", "ru_ad.mp4"]).1
      ["RU", "spot_30s_ru_1080x1920.mp4"] = some [6] :=
  ⟨by decide, by decide,
   (c10_wip_files_excluded
     ⟨"spot", fun _ => some ("1080x1920", 30), fun _ => false⟩
     [(["wip_ad.mp4"], ([5] : Content)), (["ru_ad.mp4"], [6])]
     ["wip_ad.mp4", "ru_ad.mp4"] "wip_ad.mp4" (by decide)
     ⟨[5], by decide⟩).1,
   (c10_wip_files_excluded
     ⟨"spot", fun _ => some ("1080x1920", 30), fun _ => false⟩
     [(["wip_ad.mp4"], ([5] : Content)), (["ru_ad.mp4"], [6])]
     ["wip_ad.mp4", "ru_ad.mp4"] "wip_ad.mp4" (by decide)
     ⟨[5], by decide⟩).2.1,
   by decide⟩

end QuickBatch
